import Mathlib

/-!
csrgraph: a dynamic compressed-sparse-row directed graph.

Shallow embedding of `src/dglib/csrgraph.hh` (class `csrgraph<N, A>` and its
private class `internalgraph`).

Modelling conventions.

* `absl::flat_hash_map<K, int>` is an association list with at most one entry
  per key.  `operator[]` on a missing key inserts the key with the
  value-initialised `int` (0), exactly as the container does; `size()` is the
  number of entries.  The iteration order of a hash map is unspecified, so the
  only place where the source iterates over one (`csrgraph::add(const csrgraph&)`)
  takes the enumeration order as an explicit argument.
* `int` is modelled by `Int`; the comparison `i <= fNodes.size()` converts `i`
  to an unsigned value, so a negative `i` fails the test.  Graphs with `2^31`
  nodes or edges are outside the model.
* `std::vector` is a `List`.  `at` throws outside the bounds, and an iterator
  outside `[begin, end]` or a negative size has no defined result: those
  operations return `none`.
* A member function that can touch the object returns the new object together
  with its result.  `areConnected` is declared `const` in the source although it
  calls `connections`, which is not; the model follows the bodies.
* The overloads of `add` are `add` (one node), `add_edge` (two nodes and a value)
  and `add_graph` (another graph); the two-argument `areConnected` is
  `areConnected2`.
-/

namespace csrgraph

/-! ## Hash maps with `int` values -/

/-- Value stored for key `k`, when there is one (`find`). -/
def map_find {K : Type} [DecidableEq K] : List (K × Int) → K → Option Int
  | [], _ => none
  | (k', v) :: m, k => if k' = k then some v else map_find m k

/-- Number of entries with key `k`: 0 or 1 (`count`). -/
def map_count {K : Type} [DecidableEq K] (m : List (K × Int)) (k : K) : Nat :=
  match map_find m k with
  | some _ => 1
  | none => 0

/-- Read access `m[k]`: a missing key is inserted with value 0 first. -/
def map_index {K : Type} [DecidableEq K] (m : List (K × Int)) (k : K) :
    List (K × Int) × Int :=
  match map_find m k with
  | some v => (m, v)
  | none => (m ++ [(k, 0)], 0)

/-- Overwrite the value of an existing key. -/
def map_set {K : Type} [DecidableEq K] : List (K × Int) → K → Int → List (K × Int)
  | [], _, _ => []
  | (k', v') :: m, k, v => if k' = k then (k', v) :: m else (k', v') :: map_set m k v

/-- Assignment `m[k] = v`. -/
def map_assign {K : Type} [DecidableEq K] (m : List (K × Int)) (k : K) (v : Int) :
    List (K × Int) :=
  map_set (map_index m k).1 k v

/-- Member `insert({k, v})`: nothing happens when the key is present. -/
def map_insert {K : Type} [DecidableEq K] (m : List (K × Int)) (k : K) (v : Int) :
    List (K × Int) :=
  match map_find m k with
  | some _ => m
  | none => m ++ [(k, v)]

/-- Increment `m[k]++`. -/
def map_incr {K : Type} [DecidableEq K] (m : List (K × Int)) (k : K) : List (K × Int) :=
  map_set (map_index m k).1 k ((map_index m k).2 + 1)

/-! ## Vectors -/

/-- Checked access `v.at(i)`. -/
def vec_at {E : Type} (v : List E) (i : Int) : Option E :=
  if 0 ≤ i then v[i.toNat]? else none

/-- Insertion `v.insert(v.begin() + pos, e)`. -/
def vec_insert {E : Type} (v : List E) (pos : Int) (e : E) : Option (List E) :=
  if 0 ≤ pos ∧ pos ≤ (v.length : Int) then
    some (v.take pos.toNat ++ e :: v.drop pos.toNat)
  else none

/-- A fresh vector of `hi - lo` elements filled by
`std::copy(v.begin() + lo, v.begin() + hi, e.begin())`. -/
def vec_slice {E : Type} (v : List E) (lo hi : Int) : Option (List E) :=
  if hi - lo < 0 then none
  else if 0 ≤ lo ∧ hi ≤ (v.length : Int) then
    some ((v.drop lo.toNat).take (hi - lo).toNat)
  else none

/-! ## The internal graph -/

/-- The three members of `internalgraph`. -/
structure internalgraph (N A : Type) where
  fNodes : List (N × Int)
  csrN : List (Int × Int)
  csrF : List (N × A)

/-- The graph of a freshly constructed handle. -/
def internalgraph.empty {N A : Type} : internalgraph N A :=
  { fNodes := [], csrN := [], csrF := [] }

/-- Body of the loop of `find_edge`: visits `i, i+1, ...` for `steps` rounds. -/
def find_edge_scan {N A : Type} [DecidableEq N] (csrF : List (N × A)) (n2 : N) :
    Int → Nat → Option Bool
  | _, 0 => some false
  | i, steps + 1 =>
    match vec_at csrF i with
    | none => none
    | some e => if e.1 = n2 then some true else find_edge_scan csrF n2 (i + 1) steps

/-- Member `find_edge(n1, n2)`. The loop runs from `csrN[fNodes[n1]-1]` up to
`csrN[fNodes[n1]]`, that is `hi - lo` rounds when `lo < hi` and none otherwise. -/
def find_edge {N A : Type} [DecidableEq N] (g : internalgraph N A) (n1 n2 : N) :
    Option (internalgraph N A × Bool) :=
  if map_count g.fNodes n1 = 0 ∨ map_count g.fNodes n2 = 0 then some (g, false)
  else
    let r := (map_index g.fNodes n1).2
    let fN := (map_index g.fNodes n1).1
    let lo := (map_index g.csrN (r - 1)).2
    let cN1 := (map_index g.csrN (r - 1)).1
    let hi := (map_index cN1 r).2
    let cN2 := (map_index cN1 r).1
    match find_edge_scan g.csrF n2 lo (hi - lo).toNat with
    | none => none
    | some b => some ({ fNodes := fN, csrN := cN2, csrF := g.csrF }, b)

/-- Loop of `incr_N`: `csrN[i]++` for `steps` consecutive keys from `i`. -/
def incr_N_loop : List (Int × Int) → Int → Nat → List (Int × Int)
  | csrN, _, 0 => csrN
  | csrN, i, steps + 1 => incr_N_loop (map_incr csrN i) (i + 1) steps

/-- Member `incr_N(n)`: `for (int i = fNodes[n]; i <= fNodes.size(); ++i) csrN[i]++`.
The test is an unsigned comparison, so a negative start runs no round. -/
def incr_N {N A : Type} [DecidableEq N] (g : internalgraph N A) (n : N) :
    internalgraph N A :=
  let r := (map_index g.fNodes n).2
  let fN := (map_index g.fNodes n).1
  let steps := if r < 0 then 0 else ((fN.length : Int) + 1 - r).toNat
  { fNodes := fN, csrN := incr_N_loop g.csrN r steps, csrF := g.csrF }

/-- Member `add(n)`. -/
def add {N A : Type} [DecidableEq N] (g : internalgraph N A) (n : N) : internalgraph N A :=
  if map_count g.fNodes n ≠ 0 then g
  else
    let idx : Int := (g.fNodes.length : Int) + 1
    let fN := map_assign g.fNodes n idx
    let prev := (map_index g.csrN (idx - 1)).2
    let cN := (map_index g.csrN (idx - 1)).1
    { fNodes := fN, csrN := map_insert cN idx prev, csrF := g.csrF }

/-- Member `add(n1, n2, d)`. -/
def add_edge {N A : Type} [DecidableEq N] (g : internalgraph N A) (n1 n2 : N) (d : A) :
    Option (internalgraph N A) :=
  match find_edge (add g n1) n1 n2 with
  | none => none
  | some (g1, true) => some g1
  | some (g1, false) =>
    let g2 := add (incr_N g1 n1) n2
    let r := (map_index g2.fNodes n1).2
    let fN := (map_index g2.fNodes n1).1
    let pos := (map_index g2.csrN r).2 - 1
    let cN := (map_index g2.csrN r).1
    match vec_insert g2.csrF pos (n2, d) with
    | none => none
    | some F => some { fNodes := fN, csrN := cN, csrF := F }

/-- Member `nodes()`. -/
def nodes {N A : Type} (g : internalgraph N A) : List (N × Int) := g.fNodes

/-- Member `connections(n)`: the three `operator[]` reads may insert keys. -/
def connections {N A : Type} [DecidableEq N] (g : internalgraph N A) (n : N) :
    Option (internalgraph N A × List (N × A)) :=
  let r := (map_index g.fNodes n).2
  let fN := (map_index g.fNodes n).1
  let hi := (map_index g.csrN r).2
  let cN1 := (map_index g.csrN r).1
  let lo := (map_index cN1 (r - 1)).2
  let cN2 := (map_index cN1 (r - 1)).1
  match vec_slice g.csrF lo hi with
  | none => none
  | some e => some ({ fNodes := fN, csrN := cN2, csrF := g.csrF }, e)

/-- Member `areConnected(n1, n2, d)`: looks for the pair `{n2, d}` in
`connections(n1)`. -/
def areConnected {N A : Type} [DecidableEq N] [DecidableEq A] (g : internalgraph N A)
    (n1 n2 : N) (d : A) : Option (internalgraph N A × Bool) :=
  match connections g n1 with
  | none => none
  | some (g1, c) => some (g1, decide ((n2, d) ∈ c))

/-- Member `areConnected(n1, n2)`: declares a local `A d;` and calls the
three-argument member with it.  `d0` is the value of that local. -/
def areConnected2 {N A : Type} [DecidableEq N] [DecidableEq A] (d0 : A)
    (g : internalgraph N A) (n1 n2 : N) : Option (internalgraph N A × Bool) :=
  areConnected g n1 n2 d0

/-! ## The facade: union of two graphs -/

/-- Inner loop of `csrgraph::add(const csrgraph&)`: `add(n, c.first, c.second)`
for every `c` of one node. -/
def add_conns {N A : Type} [DecidableEq N] (self : internalgraph N A) (n : N) :
    List (N × A) → Option (internalgraph N A)
  | [] => some self
  | c :: cs =>
    match add_edge self n c.1 c.2 with
    | none => none
    | some s => add_conns s n cs

/-- Facade member `add(const csrgraph& g)` for a `g` that is another object than
the receiver; `order` is the order in which the loop meets the keys of
`g.nodes()`. Returns the receiver and `g`. -/
def add_graph {N A : Type} [DecidableEq N] (self other : internalgraph N A) :
    List N → Option (internalgraph N A × internalgraph N A)
  | [] => some (self, other)
  | n :: order =>
    let s0 := add self n
    match connections other n with
    | none => none
    | some (o1, cs) =>
      match add_conns s0 n cs with
      | none => none
      | some s1 => add_graph s1 o1 order

/-! ## Graphs built by add operations -/

/-- One mutating call of the public interface. -/
inductive Op (N A : Type) where
  | node (n : N)
  | edge (n1 n2 : N) (v : A)

/-- Run one call. -/
def apply_op {N A : Type} [DecidableEq N] (g : internalgraph N A) :
    Op N A → Option (internalgraph N A)
  | Op.node n => some (add g n)
  | Op.edge n1 n2 v => add_edge g n1 n2 v

/-- Run a sequence of calls from `g`. -/
def run {N A : Type} [DecidableEq N] (g : internalgraph N A) :
    List (Op N A) → Option (internalgraph N A)
  | [] => some g
  | op :: ops =>
    match apply_op g op with
    | none => none
    | some g1 => run g1 ops

/-- Run a sequence of calls from the empty graph. -/
def build {N A : Type} [DecidableEq N] (ops : List (Op N A)) : Option (internalgraph N A) :=
  run internalgraph.empty ops

/-! ## The graphs of `main` -/

/-- Calls that build `g1` in `main`. -/
def demo_g1_ops : List (Op Char Int) :=
  [Op.edge 'c' 'd' 1, Op.edge 'c' 'd' 1, Op.edge 'c' 'e' 3, Op.edge 'd' 'g' 1]

/-- Calls that build `g2` in `main`; `add('m', 'p')` is written without a value
there, and the value of a connection is 0 by default. -/
def demo_g2_ops : List (Op Char Int) :=
  [Op.edge 'q' 'r' 1, Op.edge 'f' 't' 1, Op.edge 'r' 'f' 3, Op.edge 'z' 'y' 1, Op.node 'x',
    Op.edge 'm' 'p' 0]

/-- State of `g1` after its four calls. -/
def demo_g1 : internalgraph Char Int :=
  { fNodes := [('c', 1), ('d', 2), ('e', 3), ('g', 4)]
    csrN := [(0, 0), (1, 2), (2, 3), (3, 3), (4, 3)]
    csrF := [('d', 1), ('e', 3), ('g', 1)] }

/-- State of `g2` after its six calls. -/
def demo_g2 : internalgraph Char Int :=
  { fNodes := [('q', 1), ('r', 2), ('f', 3), ('t', 4), ('z', 5), ('y', 6), ('x', 7), ('m', 8),
      ('p', 9)]
    csrN := [(0, 0), (1, 1), (2, 2), (3, 3), (4, 3), (5, 4), (6, 4), (7, 4), (8, 5), (9, 5)]
    csrF := [('r', 1), ('f', 3), ('t', 1), ('y', 1), ('p', 0)] }

/-- Nodes of `nodes()` in increasing rank order. -/
def nodes_by_rank {N A : Type} (g : internalgraph N A) : List N :=
  ((nodes g).insertionSort (fun a b => a.2 ≤ b.2)).map Prod.fst

/-- Call `connections` on each node of the list in turn and concatenate the
results. -/
def concat_connections {N A : Type} [DecidableEq N] (g : internalgraph N A) :
    List N → Option (List (N × A))
  | [] => some []
  | n :: ns =>
    match connections g n with
    | none => none
    | some (g1, c) =>
      match concat_connections g1 ns with
      | none => none
      | some rest => some (c ++ rest)

/-- The call `connections(s)` succeeds and its result holds the pair `(d, a)`. -/
def stores {N A : Type} [DecidableEq N] (g : internalgraph N A) (s d : N) (a : A) : Prop :=
  ∃ g1 c, connections g s = some (g1, c) ∧ (d, a) ∈ c

/-! ## Adjacency view of a graph

The proofs describe a built graph by the list of its nodes in rank order, each
with its slice of the edge store. -/

/-- Node table in which the nodes of the list get the ranks `i, i+1, ...`. -/
def rank_table {N : Type} : Int → List N → List (N × Int)
  | _, [] => []
  | i, n :: l => (n, i) :: rank_table (i + 1) l

/-- Offset entries `i, i+1, ...` of the slices, the first slice starting at
position `c`; the entry closing the last slice is not included. -/
def offset_pre {E : Type} : Int → Int → List (List E) → List (Int × Int)
  | _, _, [] => []
  | i, c, s :: r => (i, c) :: offset_pre (i + 1) (c + (s.length : Int)) r

/-- Offset table of the slices: one entry more than there are slices. -/
def offset_table {E : Type} : Int → Int → List (List E) → List (Int × Int)
  | i, c, [] => [(i, c)]
  | i, c, s :: r => (i, c) :: offset_table (i + 1) (c + (s.length : Int)) r

/-- Offset table of a graph whose slices are `S`; no entry before the first
node is added. -/
def csrN_of {E : Type} : List (List E) → List (Int × Int)
  | [] => []
  | s :: r => offset_table 0 0 (s :: r)

/-- Graph with the node and offset tables of the adjacency list and edge store `F`. -/
def tables {N A : Type} (adj : List (N × List (N × A))) (F : List (N × A)) :
    internalgraph N A :=
  { fNodes := rank_table 1 (adj.map Prod.fst)
    csrN := csrN_of (adj.map Prod.snd)
    csrF := F }

/-- Graph represented by an adjacency list. -/
def repr {N A : Type} (adj : List (N × List (N × A))) : internalgraph N A :=
  tables adj (adj.map Prod.snd).flatten

/-- Slice of node `n` in the adjacency list, empty when `n` is not in it. -/
def a_conn {N A : Type} [DecidableEq N] : List (N × List (N × A)) → N → List (N × A)
  | [], _ => []
  | (m, s) :: r, n => if m = n then s else a_conn r n

/-- Adjacency list after `add(n)`. -/
def a_add {N A : Type} [DecidableEq N] (adj : List (N × List (N × A))) (n : N) :
    List (N × List (N × A)) :=
  if n ∈ adj.map Prod.fst then adj else adj ++ [(n, [])]

/-- Append `e` to the slice of `n`. -/
def a_push {N A : Type} [DecidableEq N] : List (N × List (N × A)) → N → N × A →
    List (N × List (N × A))
  | [], _, _ => []
  | (m, s) :: r, n, e => if m = n then (m, s ++ [e]) :: r else (m, s) :: a_push r n e

/-- Adjacency list after `add(n1, n2, v)`. -/
def a_add_edge {N A : Type} [DecidableEq N] (adj : List (N × List (N × A))) (n1 n2 : N)
    (v : A) : List (N × List (N × A)) :=
  if n2 ∈ (a_add adj n1).map Prod.fst ∧ n2 ∈ (a_conn (a_add adj n1) n1).map Prod.fst then
    a_add adj n1
  else a_add (a_push (a_add adj n1) n1 (n2, v)) n2

/-- Adjacency list after one call. -/
def a_apply {N A : Type} [DecidableEq N] (adj : List (N × List (N × A))) :
    Op N A → List (N × List (N × A))
  | Op.node n => a_add adj n
  | Op.edge n1 n2 v => a_add_edge adj n1 n2 v

/-- Adjacency list after a sequence of calls. -/
def a_run {N A : Type} [DecidableEq N] (adj : List (N × List (N × A))) :
    List (Op N A) → List (N × List (N × A))
  | [] => adj
  | op :: ops => a_run (a_apply adj op) ops

/-- Adjacency list after `add(n, c.first, c.second)` for every `c` of the list. -/
def a_add_conns {N A : Type} [DecidableEq N] (adj : List (N × List (N × A))) (n : N) :
    List (N × A) → List (N × List (N × A))
  | [] => adj
  | c :: cs => a_add_conns (a_add_edge adj n c.1 c.2) n cs

/-- Adjacency list of the receiver after the union with `a2`, whose nodes are met
in the given order. -/
def a_union {N A : Type} [DecidableEq N] (a1 a2 : List (N × List (N × A))) :
    List N → List (N × List (N × A))
  | [] => a1
  | n :: order => a_union (a_add_conns (a_add a1 n) n (a_conn a2 n)) a2 order

/-- Well-formed adjacency list: every node once, every destination a node,
no two edges of a node with the same destination. -/
def AWF {N A : Type} (adj : List (N × List (N × A))) : Prop :=
  (adj.map Prod.fst).Nodup ∧
  (∀ p ∈ adj, ∀ e ∈ p.2, e.1 ∈ adj.map Prod.fst) ∧
  (∀ p ∈ adj, (p.2.map Prod.fst).Nodup)

/-! ## Calls with queries in between -/

/-- One call of the public interface, `connections(u)` included. -/
inductive Call (N A : Type) where
  | node (n : N)
  | edge (n1 n2 : N) (v : A)
  | query (u : N)

/-- Run one call; a query keeps the state that `connections` leaves. -/
def apply_call {N A : Type} [DecidableEq N] (g : internalgraph N A) :
    Call N A → Option (internalgraph N A)
  | Call.node n => some (add g n)
  | Call.edge n1 n2 v => add_edge g n1 n2 v
  | Call.query u =>
    match connections g u with
    | none => none
    | some (g1, _) => some g1

/-- Run a sequence of calls from `g`. -/
def run_calls {N A : Type} [DecidableEq N] (g : internalgraph N A) :
    List (Call N A) → Option (internalgraph N A)
  | [] => some g
  | c :: cs =>
    match apply_call g c with
    | none => none
    | some g1 => run_calls g1 cs

/-- The same sequence with the `connections` calls removed. -/
def strip_queries {N A : Type} : List (Call N A) → List (Op N A)
  | [] => []
  | Call.node n :: cs => Op.node n :: strip_queries cs
  | Call.edge n1 n2 v :: cs => Op.edge n1 n2 v :: strip_queries cs
  | Call.query _ :: cs => strip_queries cs

/-! ## Order of first appearance -/

/-- Record `n` as seen, after the nodes seen before it. -/
def seen_add {N : Type} [DecidableEq N] (L : List N) (n : N) : List N :=
  if n ∈ L then L else L ++ [n]

/-- Nodes seen after one call: `add(n1, n2, v)` meets `n1` before `n2`. -/
def seen_op {N A : Type} [DecidableEq N] (L : List N) : Op N A → List N
  | Op.node n => seen_add L n
  | Op.edge n1 n2 _ => seen_add (seen_add L n1) n2

/-- Nodes seen by a sequence of calls, starting from the list `L`. -/
def first_seen_from {N A : Type} [DecidableEq N] (L : List N) : List (Op N A) → List N
  | [] => L
  | op :: ops => first_seen_from (seen_op L op) ops

/-- Nodes of a sequence of calls in the order of their first appearance. -/
def first_seen {N A : Type} [DecidableEq N] (ops : List (Op N A)) : List N :=
  first_seen_from [] ops

/-! ## Handles

A `csrgraph` object holds one member, the shared pointer `fContent`.  The
`internalgraph` objects live in a store indexed by address; copying a handle
copies the address. -/

/-- A `csrgraph` object: the address held by `fContent`. -/
structure handle where
  fContent : Nat
deriving DecidableEq

/-- Constructor `csrgraph()`: a new empty `internalgraph` at a fresh address. -/
def handle_new {N A : Type} (st : List (internalgraph N A)) :
    List (internalgraph N A) × handle :=
  (st ++ [internalgraph.empty], { fContent := st.length })

/-- Facade member `nodes()`. -/
def facade_nodes {N A : Type} (st : List (internalgraph N A)) (h : handle) :
    Option (List (N × Int)) :=
  match st[h.fContent]? with
  | none => none
  | some g => some (nodes g)

/-- Facade member `connections(n)`. -/
def facade_connections {N A : Type} [DecidableEq N] (st : List (internalgraph N A))
    (h : handle) (n : N) : Option (List (internalgraph N A) × List (N × A)) :=
  match st[h.fContent]? with
  | none => none
  | some g =>
    match connections g n with
    | none => none
    | some (g1, c) => some (st.set h.fContent g1, c)

/-- Facade member `add(n)`. -/
def facade_add {N A : Type} [DecidableEq N] (st : List (internalgraph N A)) (h : handle)
    (n : N) : Option (List (internalgraph N A)) :=
  match st[h.fContent]? with
  | none => none
  | some g => some (st.set h.fContent (add g n))

/-- Facade member `add(n1, n2, d)`. -/
def facade_add_edge {N A : Type} [DecidableEq N] (st : List (internalgraph N A))
    (h : handle) (n1 n2 : N) (d : A) : Option (List (internalgraph N A)) :=
  match st[h.fContent]? with
  | none => none
  | some g =>
    match add_edge g n1 n2 d with
    | none => none
    | some g1 => some (st.set h.fContent g1)

/-- Inner loop of the facade member `add(const csrgraph&)`. -/
def facade_add_conns {N A : Type} [DecidableEq N] (st : List (internalgraph N A))
    (self : handle) (n : N) : List (N × A) → Option (List (internalgraph N A))
  | [] => some st
  | c :: cs =>
    match facade_add_edge st self n c.1 c.2 with
    | none => none
    | some st1 => facade_add_conns st1 self n cs

/-- Facade member `add(const csrgraph& g)` on handles; `order` is the order in
which the loop meets the keys that `g.nodes()` has when the loop starts. -/
def facade_add_graph {N A : Type} [DecidableEq N] (st : List (internalgraph N A))
    (self g : handle) : List N → Option (List (internalgraph N A))
  | [] => some st
  | n :: order =>
    match facade_add st self n with
    | none => none
    | some st1 =>
      match facade_connections st1 g n with
      | none => none
      | some (st2, cs) =>
        match facade_add_conns st2 self n cs with
        | none => none
        | some st3 => facade_add_graph st3 self g order

/-- Operator `+`: `add(g); return *this;`, the result being a copy of the
receiver. -/
def op_plus {N A : Type} [DecidableEq N] (st : List (internalgraph N A)) (self g : handle)
    (order : List N) : Option (List (internalgraph N A) × handle) :=
  match facade_add_graph st self g order with
  | none => none
  | some st1 => some (st1, { fContent := self.fContent })

/-- Operator `==`: comparison of the two `fContent` pointers. -/
def handle_eq (p1 p2 : handle) : Bool := decide (p1.fContent = p2.fContent)

/-- Operator `<`: comparison of the two `fContent` pointers. -/
def handle_lt (p1 p2 : handle) : Bool := decide (p1.fContent < p2.fContent)

/-! ## A sequence of calls with a query on an unknown node -/

/-- Calls `add('a','b',1); connections('z'); add('c','a',5)`. -/
def demo_calls : List (Call Char Int) :=
  [Call.edge 'a' 'b' 1, Call.query 'z', Call.edge 'c' 'a' 5]

/-- State after the three calls of `demo_calls`. -/
def demo_calls_graph : internalgraph Char Int :=
  { fNodes := [('a', 1), ('b', 2), ('z', 0), ('c', 4)]
    csrN := [(0, 0), (1, 1), (2, 1), (-1, 0), (3, 0), (4, 1)]
    csrF := [('a', 5), ('b', 1)] }

/-- State after the two `add` calls of `demo_calls` alone. -/
def demo_calls_stripped_graph : internalgraph Char Int :=
  { fNodes := [('a', 1), ('b', 2), ('c', 3)]
    csrN := [(0, 0), (1, 1), (2, 1), (3, 2)]
    csrF := [('b', 1), ('a', 5)] }

/-! ## Hash map lemmas -/

theorem map_find_none {K : Type} [DecidableEq K] (m : List (K × Int)) (k : K)
    (h : ∀ p ∈ m, p.1 ≠ k) : map_find m k = none := by
  induction m with
  | nil => rfl
  | cons p m ih =>
    obtain ⟨k', v⟩ := p
    have h1 : k' ≠ k := h (k', v) (List.mem_cons_self _ _)
    simp only [map_find, if_neg h1]
    exact ih (fun q hq => h q (List.mem_cons_of_mem _ hq))

theorem map_find_mid {K : Type} [DecidableEq K] (pre post : List (K × Int)) (k : K) (v : Int)
    (h : ∀ p ∈ pre, p.1 ≠ k) : map_find (pre ++ (k, v) :: post) k = some v := by
  induction pre with
  | nil => simp [map_find]
  | cons p pre ih =>
    obtain ⟨k', w⟩ := p
    have h1 : k' ≠ k := h (k', w) (List.mem_cons_self _ _)
    simp only [List.cons_append, map_find, if_neg h1]
    exact ih (fun q hq => h q (List.mem_cons_of_mem _ hq))

theorem map_set_mid {K : Type} [DecidableEq K] (pre post : List (K × Int)) (k : K) (v w : Int)
    (h : ∀ p ∈ pre, p.1 ≠ k) :
    map_set (pre ++ (k, v) :: post) k w = pre ++ (k, w) :: post := by
  induction pre with
  | nil => simp [map_set]
  | cons p pre ih =>
    obtain ⟨k', u⟩ := p
    have h1 : k' ≠ k := h (k', u) (List.mem_cons_self _ _)
    simp only [List.cons_append, map_set, if_neg h1]
    exact congrArg _ (ih (fun q hq => h q (List.mem_cons_of_mem _ hq)))

theorem map_index_mid {K : Type} [DecidableEq K] (pre post : List (K × Int)) (k : K) (v : Int)
    (h : ∀ p ∈ pre, p.1 ≠ k) :
    map_index (pre ++ (k, v) :: post) k = (pre ++ (k, v) :: post, v) := by
  simp only [map_index, map_find_mid pre post k v h]

theorem map_index_none {K : Type} [DecidableEq K] (m : List (K × Int)) (k : K)
    (h : ∀ p ∈ m, p.1 ≠ k) : map_index m k = (m ++ [(k, 0)], 0) := by
  simp only [map_index, map_find_none m k h]

theorem map_incr_mid {K : Type} [DecidableEq K] (pre post : List (K × Int)) (k : K) (v : Int)
    (h : ∀ p ∈ pre, p.1 ≠ k) :
    map_incr (pre ++ (k, v) :: post) k = pre ++ (k, v + 1) :: post := by
  simp only [map_incr, map_index_mid pre post k v h, map_set_mid pre post k v (v + 1) h]

theorem map_insert_none {K : Type} [DecidableEq K] (m : List (K × Int)) (k : K) (v : Int)
    (h : ∀ p ∈ m, p.1 ≠ k) : map_insert m k v = m ++ [(k, v)] := by
  simp only [map_insert, map_find_none m k h]

theorem map_assign_none {K : Type} [DecidableEq K] (m : List (K × Int)) (k : K) (v : Int)
    (h : ∀ p ∈ m, p.1 ≠ k) : map_assign m k v = m ++ [(k, v)] := by
  simp only [map_assign, map_index_none m k h]
  exact map_set_mid m [] k 0 v h

theorem map_count_mid {K : Type} [DecidableEq K] (pre post : List (K × Int)) (k : K) (v : Int)
    (h : ∀ p ∈ pre, p.1 ≠ k) : map_count (pre ++ (k, v) :: post) k = 1 := by
  simp only [map_count, map_find_mid pre post k v h]

theorem map_count_none {K : Type} [DecidableEq K] (m : List (K × Int)) (k : K)
    (h : ∀ p ∈ m, p.1 ≠ k) : map_count m k = 0 := by
  simp only [map_count, map_find_none m k h]

theorem map_find_isSome_iff {K : Type} [DecidableEq K] (m : List (K × Int)) (k : K) :
    (∃ v, map_find m k = some v) ↔ k ∈ m.map Prod.fst := by
  induction m with
  | nil => simp [map_find]
  | cons p m ih =>
    obtain ⟨k', w⟩ := p
    by_cases h1 : k' = k
    · simp [map_find, h1]
    · simp only [map_find, if_neg h1, ih, List.map_cons, List.mem_cons]
      constructor
      · intro h; exact Or.inr h
      · rintro (h | h)
        · exact absurd h.symm h1
        · exact h

theorem map_count_ne_zero_iff {K : Type} [DecidableEq K] (m : List (K × Int)) (k : K) :
    map_count m k ≠ 0 ↔ k ∈ m.map Prod.fst := by
  rw [← map_find_isSome_iff]
  unfold map_count
  cases map_find m k <;> simp

theorem map_count_eq_zero_iff {K : Type} [DecidableEq K] (m : List (K × Int)) (k : K) :
    map_count m k = 0 ↔ k ∉ m.map Prod.fst := by
  rw [← map_count_ne_zero_iff]; simp

/-! ## Tables of an adjacency list -/

theorem rank_table_append {N : Type} (L R : List N) (i : Int) :
    rank_table i (L ++ R) = rank_table i L ++ rank_table (i + (L.length : Int)) R := by
  induction L generalizing i with
  | nil => simp [rank_table]
  | cons n L ih =>
    have e : i + 1 + (L.length : Int) = i + ((L.length + 1 : Nat) : Int) := by
      push_cast; ring
    show (n, i) :: rank_table (i + 1) (L ++ R) =
      (n, i) :: (rank_table (i + 1) L ++ rank_table (i + ((L.length + 1 : Nat) : Int)) R)
    rw [ih, e]

theorem rank_table_keys {N : Type} (L : List N) (i : Int) :
    (rank_table i L).map Prod.fst = L := by
  induction L generalizing i with
  | nil => rfl
  | cons n L ih => simp only [rank_table, List.map_cons, ih]

theorem rank_table_length {N : Type} (L : List N) (i : Int) :
    (rank_table i L).length = L.length := by
  rw [← List.length_map (rank_table i L) Prod.fst, rank_table_keys]

theorem rank_table_ne {N : Type} (L : List N) (i : Int) (n : N) (h : n ∉ L) :
    ∀ p ∈ rank_table i L, p.1 ≠ n := by
  intro p hp hpn
  apply h
  rw [← rank_table_keys L i, ← hpn]
  exact List.mem_map_of_mem _ hp

theorem rank_table_ge {N : Type} (L : List N) (i : Int) :
    ∀ p ∈ rank_table i L, i ≤ p.2 := by
  induction L generalizing i with
  | nil => intro p hp; simp [rank_table] at hp
  | cons n L ih =>
    intro p hp
    simp only [rank_table, List.mem_cons] at hp
    rcases hp with rfl | hp
    · exact le_refl _
    · have := ih (i + 1) p hp
      omega

theorem rank_table_sorted {N : Type} (L : List N) (i : Int) :
    List.Sorted (fun a b : N × Int => a.2 ≤ b.2) (rank_table i L) := by
  induction L generalizing i with
  | nil => exact List.sorted_nil
  | cons n L ih =>
    simp only [rank_table]
    refine List.sorted_cons.mpr ⟨?_, ih (i + 1)⟩
    intro p hp
    have := rank_table_ge L (i + 1) p hp
    show i ≤ p.2
    omega

theorem offset_table_append {E : Type} (S1 S2 : List (List E)) (i c : Int) :
    offset_table i c (S1 ++ S2) =
      offset_pre i c S1 ++
        offset_table (i + (S1.length : Int)) (c + (S1.flatten.length : Int)) S2 := by
  induction S1 generalizing i c with
  | nil => simp [offset_pre]
  | cons s S1 ih =>
    have e1 : i + 1 + (S1.length : Int) = i + ((S1.length + 1 : Nat) : Int) := by
      push_cast; ring
    have e2 : c + (s.length : Int) + (S1.flatten.length : Int) =
        c + ((s.length + S1.flatten.length : Nat) : Int) := by
      push_cast; ring
    show (i, c) :: offset_table (i + 1) (c + (s.length : Int)) (S1 ++ S2) =
      (i, c) :: (offset_pre (i + 1) (c + (s.length : Int)) S1 ++
        offset_table (i + (((s :: S1).length : Nat) : Int))
          (c + (((s :: S1).flatten.length : Nat) : Int)) S2)
    rw [ih, e1, e2, List.length_cons, List.flatten_cons, List.length_append]

theorem offset_table_last {E : Type} (S : List (List E)) (i c : Int) :
    offset_table i c S =
      offset_pre i c S ++ [(i + (S.length : Int), c + (S.flatten.length : Int))] := by
  have h := offset_table_append S [] i c
  simpa [offset_table] using h

theorem offset_pre_keys {E : Type} (S : List (List E)) (i c : Int) :
    ∀ p ∈ offset_pre i c S, i ≤ p.1 ∧ p.1 < i + (S.length : Int) := by
  induction S generalizing i c with
  | nil => intro p hp; simp [offset_pre] at hp
  | cons s S ih =>
    intro p hp
    simp only [offset_pre, List.mem_cons] at hp
    rcases hp with rfl | hp
    · simp only [List.length_cons]; push_cast; omega
    · have := ih (i + 1) (c + (s.length : Int)) p hp
      simp only [List.length_cons]; push_cast; omega

theorem offset_table_keys {E : Type} (S : List (List E)) (i c : Int) :
    ∀ p ∈ offset_table i c S, i ≤ p.1 ∧ p.1 ≤ i + (S.length : Int) := by
  intro p hp
  rw [offset_table_last, List.mem_append] at hp
  rcases hp with hp | hp
  · have := offset_pre_keys S i c p hp; omega
  · simp only [List.mem_singleton] at hp
    subst hp
    simp only
    omega

theorem offset_table_head {E : Type} (S : List (List E)) (i c : Int) :
    offset_table i c S = (i, c) :: (offset_table i c S).tail := by
  cases S <;> simp [offset_table]

/-- Reading the entry that closes the slices `S1` leaves the table as it is. -/
theorem offset_table_index {E : Type} (S1 S2 : List (List E)) (i c : Int) :
    map_index (offset_table i c (S1 ++ S2)) (i + (S1.length : Int)) =
      (offset_table i c (S1 ++ S2), c + (S1.flatten.length : Int)) := by
  rw [offset_table_append, offset_table_head S2]
  apply map_index_mid
  intro p hp
  have := offset_pre_keys S1 i c p hp
  omega

theorem offset_table_absent {E : Type} (S : List (List E)) (i c k : Int)
    (h : k < i ∨ i + (S.length : Int) < k) : ∀ p ∈ offset_table i c S, p.1 ≠ k := by
  intro p hp
  have := offset_table_keys S i c p hp
  omega

theorem incr_N_loop_offset {E : Type} (R : List (List E)) (pre : List (Int × Int)) (i c : Int)
    (h : ∀ p ∈ pre, p.1 < i) :
    incr_N_loop (pre ++ offset_table i c R) i (R.length + 1) =
      pre ++ offset_table i (c + 1) R := by
  induction R generalizing pre i c with
  | nil =>
    have hne : ∀ p ∈ pre, p.1 ≠ i := fun p hp => ne_of_lt (h p hp)
    simp only [offset_table, List.length_nil, incr_N_loop, map_incr_mid pre [] i c hne]
  | cons s R ih =>
    have hne : ∀ p ∈ pre, p.1 ≠ i := fun p hp => ne_of_lt (h p hp)
    simp only [offset_table, List.length_cons]
    rw [incr_N_loop, map_incr_mid pre _ i c hne]
    have h2 : ∀ p ∈ pre ++ [(i, c + 1)], p.1 < i + 1 := by
      intro p hp
      rw [List.mem_append] at hp
      rcases hp with hp | hp
      · have := h p hp; omega
      · simp only [List.mem_singleton] at hp; subst hp; simp
    have := ih (pre ++ [(i, c + 1)]) (i + 1) (c + (s.length : Int)) h2
    simp only [List.append_assoc, List.singleton_append] at this
    rw [this]
    have e : c + (s.length : Int) + 1 = c + 1 + (s.length : Int) := by ring
    rw [e]

theorem csrN_of_ne_nil {E : Type} (S : List (List E)) (h : S ≠ []) :
    csrN_of S = offset_table 0 0 S := by
  cases S with
  | nil => exact absurd rfl h
  | cons s S => rfl

/-! ## Adjacency lists -/

theorem adj_split {N A : Type} [DecidableEq N] (adj : List (N × List (N × A))) (n : N)
    (h : n ∈ adj.map Prod.fst) :
    ∃ La s Ra, adj = La ++ (n, s) :: Ra ∧ n ∉ La.map Prod.fst := by
  induction adj with
  | nil => simp at h
  | cons p adj ih =>
    obtain ⟨m, t⟩ := p
    by_cases hm : m = n
    · subst hm
      exact ⟨[], t, adj, rfl, by simp⟩
    · have h2 : n ∈ adj.map Prod.fst := by
        simp only [List.map_cons, List.mem_cons] at h
        rcases h with h | h
        · exact absurd h.symm hm
        · exact h
      obtain ⟨La, s, Ra, e, hL⟩ := ih h2
      refine ⟨(m, t) :: La, s, Ra, by rw [e]; rfl, ?_⟩
      simp only [List.map_cons, List.mem_cons, not_or]
      exact ⟨fun h => hm h.symm, hL⟩

theorem a_conn_mid {N A : Type} [DecidableEq N] (La Ra : List (N × List (N × A))) (n : N)
    (s : List (N × A)) (h : n ∉ La.map Prod.fst) :
    a_conn (La ++ (n, s) :: Ra) n = s := by
  induction La with
  | nil => simp [a_conn]
  | cons p La ih =>
    obtain ⟨m, t⟩ := p
    simp only [List.map_cons, List.mem_cons, not_or] at h
    have hm : m ≠ n := fun e => h.1 e.symm
    show a_conn ((m, t) :: (La ++ (n, s) :: Ra)) n = s
    simp only [a_conn, if_neg hm]
    exact ih h.2

theorem a_conn_absent {N A : Type} [DecidableEq N] (adj : List (N × List (N × A))) (n : N)
    (h : n ∉ adj.map Prod.fst) : a_conn adj n = [] := by
  induction adj with
  | nil => rfl
  | cons p adj ih =>
    obtain ⟨m, t⟩ := p
    simp only [List.map_cons, List.mem_cons, not_or] at h
    have hm : m ≠ n := fun e => h.1 e.symm
    simp only [a_conn, if_neg hm]
    exact ih h.2

theorem a_conn_skip {N A : Type} [DecidableEq N] (La Ra : List (N × List (N × A))) (n m : N)
    (s : List (N × A)) (h : n ≠ m) :
    a_conn (La ++ (n, s) :: Ra) m = a_conn (La ++ Ra) m := by
  induction La with
  | nil => simp [a_conn, h]
  | cons p La ih =>
    obtain ⟨k, t⟩ := p
    show a_conn ((k, t) :: (La ++ (n, s) :: Ra)) m = a_conn ((k, t) :: (La ++ Ra)) m
    simp only [a_conn, ih]

theorem a_push_mid {N A : Type} [DecidableEq N] (La Ra : List (N × List (N × A))) (n : N)
    (s : List (N × A)) (e : N × A) (h : n ∉ La.map Prod.fst) :
    a_push (La ++ (n, s) :: Ra) n e = La ++ (n, s ++ [e]) :: Ra := by
  induction La with
  | nil => simp [a_push]
  | cons p La ih =>
    obtain ⟨m, t⟩ := p
    simp only [List.map_cons, List.mem_cons, not_or] at h
    have hm : m ≠ n := fun e => h.1 e.symm
    show a_push ((m, t) :: (La ++ (n, s) :: Ra)) n e = (m, t) :: (La ++ (n, s ++ [e]) :: Ra)
    simp only [a_push, if_neg hm]
    exact congrArg _ (ih h.2)

theorem a_push_keys {N A : Type} [DecidableEq N] (adj : List (N × List (N × A))) (n : N)
    (e : N × A) : (a_push adj n e).map Prod.fst = adj.map Prod.fst := by
  induction adj with
  | nil => rfl
  | cons p adj ih =>
    obtain ⟨m, t⟩ := p
    by_cases hm : m = n
    · simp [a_push, hm]
    · simp [a_push, hm, ih]

theorem a_add_keys {N A : Type} [DecidableEq N] (adj : List (N × List (N × A))) (n m : N) :
    m ∈ (a_add adj n).map Prod.fst ↔ m ∈ adj.map Prod.fst ∨ m = n := by
  unfold a_add
  by_cases h : n ∈ adj.map Prod.fst
  · rw [if_pos h]
    constructor
    · exact Or.inl
    · rintro (h1 | h1)
      · exact h1
      · rw [h1]; exact h
  · rw [if_neg h]
    simp

/-! ## Vectors -/

theorem vec_at_mid {E : Type} (P R : List E) (e : E) :
    vec_at (P ++ e :: R) (P.length : Int) = some e := by
  unfold vec_at
  rw [if_pos (Int.natCast_nonneg _), Int.toNat_natCast,
    List.getElem?_append_right (le_refl _), Nat.sub_self]
  simp

theorem vec_insert_mid {E : Type} (P R : List E) (e : E) (pos : Int)
    (h : pos = (P.length : Int)) :
    vec_insert (P ++ R) pos e = some (P ++ e :: R) := by
  subst h
  unfold vec_insert
  have h1 : (0 : Int) ≤ (P.length : Int) ∧ (P.length : Int) ≤ ((P ++ R).length : Int) := by
    constructor
    · exact Int.natCast_nonneg _
    · rw [List.length_append]; push_cast; omega
  rw [if_pos h1, Int.toNat_natCast, List.take_left, List.drop_left]

theorem vec_slice_mid {E : Type} (P s R : List E) (lo hi : Int)
    (h1 : lo = (P.length : Int)) (h2 : hi = (P.length : Int) + (s.length : Int)) :
    vec_slice (P ++ s ++ R) lo hi = some s := by
  subst h1 h2
  unfold vec_slice
  have e : (P.length : Int) + (s.length : Int) - (P.length : Int) = (s.length : Int) := by ring
  have h1 : ¬ ((P.length : Int) + (s.length : Int) - (P.length : Int) < 0) := by
    rw [e]; exact not_lt.mpr (Int.natCast_nonneg _)
  have h2 : (0 : Int) ≤ (P.length : Int) ∧
      (P.length : Int) + (s.length : Int) ≤ ((P ++ s ++ R).length : Int) := by
    constructor
    · exact Int.natCast_nonneg _
    · simp only [List.length_append]; push_cast; omega
  rw [if_neg h1, if_pos h2, e, Int.toNat_natCast, Int.toNat_natCast, List.append_assoc,
    List.drop_left, List.take_left]

theorem vec_slice_zero {E : Type} (F : List E) : vec_slice F 0 0 = some [] := by
  unfold vec_slice
  simp

theorem find_edge_scan_slice {N A : Type} [DecidableEq N] (s P Q : List (N × A)) (n2 : N) :
    find_edge_scan (P ++ s ++ Q) n2 (P.length : Int) s.length =
      some (decide (n2 ∈ s.map Prod.fst)) := by
  induction s generalizing P with
  | nil => simp [find_edge_scan]
  | cons e s ih =>
    have h1 : vec_at (P ++ e :: s ++ Q) (P.length : Int) = some e := by
      rw [List.append_assoc]
      exact vec_at_mid P (s ++ Q) e
    simp only [List.length_cons, find_edge_scan, h1]
    by_cases he : e.1 = n2
    · simp [he]
    · rw [if_neg he]
      have h2 := ih (P ++ [e])
      simp only [List.append_assoc, List.singleton_append, List.length_append,
        List.length_singleton] at h2
      have e2 : ((P.length + 1 : Nat) : Int) = (P.length : Int) + 1 := by push_cast; rfl
      rw [e2] at h2
      simp only [List.append_assoc, List.cons_append] at h2 ⊢
      rw [h2]
      simp only [List.map_cons, List.mem_cons]
      have : ¬ n2 = e.1 := fun h => he h.symm
      simp [this]

/-! ## The member functions on a represented graph -/

theorem fNodes_count_iff {N A : Type} [DecidableEq N] (adj : List (N × List (N × A)))
    (n : N) : map_count (rank_table 1 (adj.map Prod.fst)) n ≠ 0 ↔ n ∈ adj.map Prod.fst := by
  rw [map_count_ne_zero_iff, rank_table_keys]

theorem fNodes_index {N A : Type} [DecidableEq N] (La Ra : List (N × List (N × A))) (n : N)
    (s : List (N × A)) (h : n ∉ La.map Prod.fst) :
    map_index (rank_table 1 ((La ++ (n, s) :: Ra).map Prod.fst)) n =
      (rank_table 1 ((La ++ (n, s) :: Ra).map Prod.fst), (La.length : Int) + 1) := by
  have e : rank_table 1 ((La ++ (n, s) :: Ra).map Prod.fst) =
      rank_table 1 (La.map Prod.fst) ++ (n, (La.length : Int) + 1) ::
        rank_table ((La.length : Int) + 1 + 1) (Ra.map Prod.fst) := by
    rw [List.map_append, rank_table_append, List.length_map, List.map_cons, rank_table,
      add_comm (1 : Int)]
  rw [e]
  exact map_index_mid _ _ n _ (rank_table_ne _ _ n h)

theorem csrN_index_lo {E : Type} (S1 S2 : List (List E)) (s : List E) (k : Int)
    (hk : k = (S1.length : Int)) :
    map_index (csrN_of (S1 ++ s :: S2)) k =
      (csrN_of (S1 ++ s :: S2), (S1.flatten.length : Int)) := by
  subst hk
  rw [csrN_of_ne_nil _ (by simp)]
  have h := offset_table_index S1 (s :: S2) 0 0
  simpa using h

theorem csrN_index_hi {E : Type} (S1 S2 : List (List E)) (s : List E) (k : Int)
    (hk : k = (S1.length : Int) + 1) :
    map_index (csrN_of (S1 ++ s :: S2)) k =
      (csrN_of (S1 ++ s :: S2), (S1.flatten.length : Int) + (s.length : Int)) := by
  subst hk
  rw [csrN_of_ne_nil _ (by simp)]
  have h := offset_table_index (S1 ++ [s]) S2 0 0
  simpa using h

theorem flatten_split {E : Type} (S1 S2 : List (List E)) (s : List E) :
    (S1 ++ s :: S2).flatten = S1.flatten ++ s ++ S2.flatten := by
  simp

theorem find_edge_repr {N A : Type} [DecidableEq N] (adj : List (N × List (N × A)))
    (n1 n2 : N) :
    find_edge (repr adj) n1 n2 =
      some (repr adj,
        decide (n2 ∈ adj.map Prod.fst ∧ n2 ∈ (a_conn adj n1).map Prod.fst)) := by
  unfold find_edge
  by_cases h1 : n1 ∈ adj.map Prod.fst
  · by_cases h2 : n2 ∈ adj.map Prod.fst
    · have c1 : ¬ (map_count (repr adj).fNodes n1 = 0 ∨ map_count (repr adj).fNodes n2 = 0) := by
        rw [not_or]
        exact ⟨(fNodes_count_iff adj n1).mpr h1, (fNodes_count_iff adj n2).mpr h2⟩
      rw [if_neg c1]
      obtain ⟨La, s, Ra, e, hL⟩ := adj_split adj n1 h1
      subst e
      have i1 := fNodes_index La Ra n1 s hL
      have i2 := csrN_index_lo (La.map Prod.snd) (Ra.map Prod.snd) s
        ((La.length : Int) + 1 - 1) (by simp)
      have i3 := csrN_index_hi (La.map Prod.snd) (Ra.map Prod.snd) s
        ((La.length : Int) + 1) (by simp)
      have hF : (repr (La ++ (n1, s) :: Ra)).csrF =
          (La.map Prod.snd).flatten ++ s ++ (Ra.map Prod.snd).flatten := by
        show ((La ++ (n1, s) :: Ra).map Prod.snd).flatten = _
        rw [List.map_append, List.map_cons, flatten_split]
      have hc : (repr (La ++ (n1, s) :: Ra)).csrN =
          csrN_of (La.map Prod.snd ++ s :: Ra.map Prod.snd) := by
        show csrN_of ((La ++ (n1, s) :: Ra).map Prod.snd) = _
        rw [List.map_append, List.map_cons]
      have hf : (repr (La ++ (n1, s) :: Ra)).fNodes =
          rank_table 1 ((La ++ (n1, s) :: Ra).map Prod.fst) := rfl
      have e3 : (((La.map Prod.snd).flatten.length : Int) + (s.length : Int) -
          ((La.map Prod.snd).flatten.length : Int)).toNat = s.length := by
        rw [add_sub_cancel_left, Int.toNat_natCast]
      simp only [hf, hc, hF, i1, i2, i3, e3, find_edge_scan_slice, a_conn_mid La Ra n1 s hL]
      simp only [h2, true_and]
      rw [← hf, ← hc, ← hF]
    · have c1 : map_count (repr adj).fNodes n1 = 0 ∨ map_count (repr adj).fNodes n2 = 0 := by
        right
        by_contra hc
        exact h2 ((fNodes_count_iff adj n2).mp hc)
      rw [if_pos c1]
      simp [h2]
  · have c1 : map_count (repr adj).fNodes n1 = 0 ∨ map_count (repr adj).fNodes n2 = 0 := by
      left
      by_contra hc
      exact h1 ((fNodes_count_iff adj n1).mp hc)
    rw [if_pos c1, a_conn_absent adj n1 h1]
    simp

theorem connections_repr {N A : Type} [DecidableEq N] (adj : List (N × List (N × A)))
    (n : N) (h : n ∈ adj.map Prod.fst) :
    connections (repr adj) n = some (repr adj, a_conn adj n) := by
  unfold connections
  obtain ⟨La, s, Ra, e, hL⟩ := adj_split adj n h
  subst e
  have i1 := fNodes_index La Ra n s hL
  have i2 := csrN_index_lo (La.map Prod.snd) (Ra.map Prod.snd) s
    ((La.length : Int) + 1 - 1) (by simp)
  have i3 := csrN_index_hi (La.map Prod.snd) (Ra.map Prod.snd) s
    ((La.length : Int) + 1) (by simp)
  have hF : (repr (La ++ (n, s) :: Ra)).csrF =
      (La.map Prod.snd).flatten ++ s ++ (Ra.map Prod.snd).flatten := by
    show ((La ++ (n, s) :: Ra).map Prod.snd).flatten = _
    rw [List.map_append, List.map_cons, flatten_split]
  have hc : (repr (La ++ (n, s) :: Ra)).csrN =
      csrN_of (La.map Prod.snd ++ s :: Ra.map Prod.snd) := by
    show csrN_of ((La ++ (n, s) :: Ra).map Prod.snd) = _
    rw [List.map_append, List.map_cons]
  have hf : (repr (La ++ (n, s) :: Ra)).fNodes =
      rank_table 1 ((La ++ (n, s) :: Ra).map Prod.fst) := rfl
  simp only [hf, hc, hF, i1, i3, i2,
    vec_slice_mid (La.map Prod.snd).flatten s (Ra.map Prod.snd).flatten _ _ rfl rfl,
    a_conn_mid La Ra n s hL]
  rw [← hf, ← hc, ← hF]

theorem connections_repr_unknown {N A : Type} [DecidableEq N]
    (adj : List (N × List (N × A))) (n : N) (h : n ∉ adj.map Prod.fst) :
    ∃ cN, connections (repr adj) n =
      some ({ fNodes := (repr adj).fNodes ++ [(n, 0)], csrN := cN, csrF := (repr adj).csrF },
        []) := by
  unfold connections
  have hf : (repr adj).fNodes = rank_table 1 (adj.map Prod.fst) := rfl
  have i1 : map_index (repr adj).fNodes n = ((repr adj).fNodes ++ [(n, 0)], 0) :=
    map_index_none _ _ (by rw [hf]; exact rank_table_ne _ _ n h)
  have i2 : (map_index (repr adj).csrN 0).2 = 0 := by
    cases adj with
    | nil => rfl
    | cons p adj =>
      show (map_index (offset_table 0 0 ((p :: adj).map Prod.snd)) 0).2 = 0
      have := offset_table_index [] ((p :: adj).map Prod.snd) 0 0
      simp only [List.nil_append, List.length_nil, Nat.cast_zero, add_zero,
        List.flatten_nil] at this
      rw [this]
  have i3 : (map_index (map_index (repr adj).csrN 0).1 (0 - 1)).2 = 0 := by
    cases adj with
    | nil => rfl
    | cons p adj =>
      show (map_index (map_index (offset_table 0 0 ((p :: adj).map Prod.snd)) 0).1 (0 - 1)).2 = 0
      have := offset_table_index [] ((p :: adj).map Prod.snd) 0 0
      simp only [List.nil_append, List.length_nil, Nat.cast_zero, add_zero,
        List.flatten_nil] at this
      rw [this, map_index_none _ _ (offset_table_absent _ 0 0 (0 - 1) (by left; omega))]
  simp only [i1, i2, i3, vec_slice_zero]
  exact ⟨_, rfl⟩

theorem fNodes_assign {N : Type} [DecidableEq N] (L : List N) (n : N) (k : Int)
    (hk : k = (L.length : Int) + 1) (h : n ∉ L) :
    map_assign (rank_table 1 L) n k = rank_table 1 (L ++ [n]) := by
  subst hk
  rw [map_assign_none _ _ _ (rank_table_ne L 1 n h), rank_table_append, rank_table, rank_table,
    add_comm (1 : Int)]

theorem csrN_add {E : Type} (S : List (List E)) (k : Int) (hk : k = (S.length : Int) + 1) :
    map_insert (map_index (csrN_of S) (k - 1)).1 k (map_index (csrN_of S) (k - 1)).2 =
      csrN_of (S ++ [[]]) := by
  subst hk
  cases S with
  | nil => rfl
  | cons s S =>
    rw [csrN_of_ne_nil (s :: S) (by simp), csrN_of_ne_nil (s :: S ++ [[]]) (by simp)]
    have h1 := offset_table_index (s :: S) [] 0 0
    simp only [List.append_nil, zero_add] at h1
    have e1 : ((s :: S).length : Int) + 1 - 1 = ((s :: S).length : Int) := by ring
    rw [e1, h1]
    simp only
    rw [map_insert_none _ _ _ (offset_table_absent _ 0 0 _ (by right; omega)),
      offset_table_append, offset_table_last (s :: S) 0 0]
    simp [offset_table]

theorem csrN_incr {E : Type} (S1 S2 : List (List E)) (s : List E) (e : E) (k : Int)
    (steps : Nat) (hk : k = (S1.length : Int) + 1) (hs : steps = S2.length + 1) :
    incr_N_loop (csrN_of (S1 ++ s :: S2)) k steps = csrN_of (S1 ++ (s ++ [e]) :: S2) := by
  subst hk hs
  rw [csrN_of_ne_nil _ (by simp), csrN_of_ne_nil _ (by simp), offset_table_append,
    offset_table_append, offset_table, offset_table]
  have h : ∀ p ∈ offset_pre 0 0 S1 ++ [((0 : Int) + (S1.length : Int),
      (0 : Int) + (S1.flatten.length : Int))], p.1 < (0 : Int) + (S1.length : Int) + 1 := by
    intro p hp
    rw [List.mem_append] at hp
    rcases hp with hp | hp
    · have := offset_pre_keys S1 0 0 p hp; omega
    · simp only [List.mem_singleton] at hp; subst hp; simp
  have key := incr_N_loop_offset S2 _ ((0 : Int) + (S1.length : Int) + 1)
    ((0 : Int) + (S1.flatten.length : Int) + (s.length : Int)) h
  simp only [List.append_assoc, List.singleton_append, zero_add] at key
  simp only [zero_add]
  rw [key, List.length_append, List.length_singleton]
  push_cast
  rw [add_assoc ((S1.flatten.length : Int))]

theorem add_tables_known {N A : Type} [DecidableEq N] (adj : List (N × List (N × A)))
    (F : List (N × A)) (n : N) (h : n ∈ adj.map Prod.fst) :
    add (tables adj F) n = tables adj F := by
  unfold add
  have c : map_count (tables adj F).fNodes n ≠ 0 := (fNodes_count_iff adj n).mpr h
  rw [if_pos c]

theorem add_tables_new {N A : Type} [DecidableEq N] (adj : List (N × List (N × A)))
    (F : List (N × A)) (n : N) (h : n ∉ adj.map Prod.fst) :
    add (tables adj F) n = tables (adj ++ [(n, [])]) F := by
  unfold add
  have c : ¬ map_count (tables adj F).fNodes n ≠ 0 := fun hc => h ((fNodes_count_iff adj n).mp hc)
  rw [if_neg c]
  have hf : (tables adj F).fNodes = rank_table 1 (adj.map Prod.fst) := rfl
  have hc : (tables adj F).csrN = csrN_of (adj.map Prod.snd) := rfl
  have hl : ((rank_table 1 (adj.map Prod.fst)).length : Int) + 1 =
      ((adj.map Prod.fst).length : Int) + 1 := by rw [rank_table_length]
  have hl2 : ((rank_table 1 (adj.map Prod.fst)).length : Int) + 1 =
      ((adj.map Prod.snd).length : Int) + 1 := by
    rw [rank_table_length, List.length_map, List.length_map]
  simp only [hf, hc]
  rw [fNodes_assign _ n _ hl h, csrN_add _ _ hl2]
  simp [tables]

theorem add_tables {N A : Type} [DecidableEq N] (adj : List (N × List (N × A)))
    (F : List (N × A)) (n : N) : add (tables adj F) n = tables (a_add adj n) F := by
  unfold a_add
  by_cases h : n ∈ adj.map Prod.fst
  · rw [if_pos h, add_tables_known adj F n h]
  · rw [if_neg h, add_tables_new adj F n h]

theorem incr_N_tables {N A : Type} [DecidableEq N] (La Ra : List (N × List (N × A)))
    (F : List (N × A)) (n : N) (s : List (N × A)) (e : N × A) (h : n ∉ La.map Prod.fst) :
    incr_N (tables (La ++ (n, s) :: Ra) F) n = tables (La ++ (n, s ++ [e]) :: Ra) F := by
  unfold incr_N
  have hf : (tables (La ++ (n, s) :: Ra) F).fNodes =
      rank_table 1 ((La ++ (n, s) :: Ra).map Prod.fst) := rfl
  have hc : (tables (La ++ (n, s) :: Ra) F).csrN =
      csrN_of (La.map Prod.snd ++ s :: Ra.map Prod.snd) := by
    show csrN_of ((La ++ (n, s) :: Ra).map Prod.snd) = _
    rw [List.map_append, List.map_cons]
  have i1 := fNodes_index La Ra n s h
  have hr : ¬ ((La.length : Int) + 1 < 0) := by omega
  have hs : (((rank_table 1 ((La ++ (n, s) :: Ra).map Prod.fst)).length : Int) + 1 -
      ((La.length : Int) + 1)).toNat = (Ra.map Prod.snd).length + 1 := by
    rw [rank_table_length]
    simp only [List.map_append, List.map_cons, List.length_append, List.length_map,
      List.length_cons]
    push_cast
    omega
  simp only [hf, hc, i1, if_neg hr]
  rw [csrN_incr (La.map Prod.snd) (Ra.map Prod.snd) s e _ _ (by simp) hs]
  simp [tables]

theorem a_add_flatten {N A : Type} [DecidableEq N] (adj : List (N × List (N × A))) (n : N) :
    ((a_add adj n).map Prod.snd).flatten = (adj.map Prod.snd).flatten := by
  unfold a_add
  by_cases h : n ∈ adj.map Prod.fst
  · rw [if_pos h]
  · rw [if_neg h]; simp

theorem a_add_split {N A : Type} [DecidableEq N] (La Ra : List (N × List (N × A)))
    (p : N × List (N × A)) (n : N) :
    ∃ Ra', a_add (La ++ p :: Ra) n = La ++ p :: Ra' ∧
      (Ra'.map Prod.snd).flatten = (Ra.map Prod.snd).flatten := by
  unfold a_add
  by_cases h : n ∈ (La ++ p :: Ra).map Prod.fst
  · rw [if_pos h]; exact ⟨Ra, rfl, rfl⟩
  · rw [if_neg h]; exact ⟨Ra ++ [(n, [])], by simp, by simp⟩

theorem add_repr {N A : Type} [DecidableEq N] (adj : List (N × List (N × A))) (n : N) :
    add (repr adj) n = repr (a_add adj n) := by
  unfold repr
  rw [add_tables, a_add_flatten]

theorem add_edge_repr {N A : Type} [DecidableEq N] (adj : List (N × List (N × A)))
    (n1 n2 : N) (v : A) :
    add_edge (repr adj) n1 n2 v = some (repr (a_add_edge adj n1 n2 v)) := by
  unfold add_edge a_add_edge
  rw [add_repr, find_edge_repr]
  by_cases hc : n2 ∈ (a_add adj n1).map Prod.fst ∧
      n2 ∈ (a_conn (a_add adj n1) n1).map Prod.fst
  · rw [if_pos hc, decide_eq_true hc]
  · rw [if_neg hc, decide_eq_false hc]
    have h1 : n1 ∈ (a_add adj n1).map Prod.fst := (a_add_keys adj n1 n1).mpr (Or.inr rfl)
    obtain ⟨La, s, Ra, e, hL⟩ := adj_split _ n1 h1
    rw [e]
    simp only
    have hr : repr (La ++ (n1, s) :: Ra) =
        tables (La ++ (n1, s) :: Ra) ((La.map Prod.snd).flatten ++ s ++ (Ra.map Prod.snd).flatten) := by
      unfold repr
      rw [List.map_append, List.map_cons, flatten_split]
    rw [hr, incr_N_tables La Ra _ n1 s (n2, v) hL, add_tables, a_push_mid La Ra n1 s (n2, v) hL]
    obtain ⟨Ra', e2, hflat⟩ := a_add_split La Ra (n1, s ++ [(n2, v)]) n2
    rw [e2]
    have hf : ∀ F, (tables (La ++ (n1, s ++ [(n2, v)]) :: Ra') F).fNodes =
        rank_table 1 ((La ++ (n1, s ++ [(n2, v)]) :: Ra').map Prod.fst) := fun _ => rfl
    have hcs : ∀ F, (tables (La ++ (n1, s ++ [(n2, v)]) :: Ra') F).csrN =
        csrN_of (La.map Prod.snd ++ (s ++ [(n2, v)]) :: Ra'.map Prod.snd) := by
      intro F
      show csrN_of ((La ++ (n1, s ++ [(n2, v)]) :: Ra').map Prod.snd) = _
      rw [List.map_append, List.map_cons]
    have hF : ∀ F, (tables (La ++ (n1, s ++ [(n2, v)]) :: Ra') F).csrF = F := fun _ => rfl
    have i1 := fNodes_index La Ra' n1 (s ++ [(n2, v)]) hL
    have i3 := csrN_index_hi (La.map Prod.snd) (Ra'.map Prod.snd) (s ++ [(n2, v)])
      ((La.length : Int) + 1) (by simp)
    have hpos : ((La.map Prod.snd).flatten.length : Int) + ((s ++ [(n2, v)]).length : Int) - 1 =
        (((La.map Prod.snd).flatten ++ s).length : Int) := by
      simp only [List.length_append, List.length_singleton]
      push_cast
      ring
    simp only [hf, hcs, hF, i1, i3]
    rw [vec_insert_mid ((La.map Prod.snd).flatten ++ s) (Ra.map Prod.snd).flatten (n2, v) _ hpos]
    simp only
    unfold repr tables
    simp only [List.map_append, List.map_cons, flatten_split, hflat, List.append_assoc,
      List.singleton_append, List.cons_append, List.nil_append]

/-! ## Sequences of calls -/

theorem repr_nil {N A : Type} : repr ([] : List (N × List (N × A))) = internalgraph.empty :=
  rfl

theorem apply_op_repr {N A : Type} [DecidableEq N] (adj : List (N × List (N × A)))
    (op : Op N A) : apply_op (repr adj) op = some (repr (a_apply adj op)) := by
  cases op with
  | node n => simp only [apply_op, a_apply, add_repr]
  | edge n1 n2 v => simp only [apply_op, a_apply, add_edge_repr]

theorem run_repr {N A : Type} [DecidableEq N] (ops : List (Op N A))
    (adj : List (N × List (N × A))) : run (repr adj) ops = some (repr (a_run adj ops)) := by
  induction ops generalizing adj with
  | nil => rfl
  | cons op ops ih => simp only [run, apply_op_repr, a_run, ih]

theorem build_repr {N A : Type} [DecidableEq N] (ops : List (Op N A)) :
    build ops = some (repr (a_run [] ops)) := by
  unfold build
  rw [← repr_nil, run_repr]

/-! ## Well-formedness of the adjacency list -/

theorem a_add_conn {N A : Type} [DecidableEq N] (adj : List (N × List (N × A))) (n m : N) :
    a_conn (a_add adj n) m = a_conn adj m := by
  unfold a_add
  by_cases h : n ∈ adj.map Prod.fst
  · rw [if_pos h]
  · rw [if_neg h]
    induction adj with
    | nil =>
      by_cases hm : n = m
      · simp [a_conn, hm]
      · simp [a_conn, hm]
    | cons p adj ih =>
      obtain ⟨k, t⟩ := p
      simp only [List.map_cons, List.mem_cons, not_or] at h
      show a_conn ((k, t) :: (adj ++ [(n, [])])) m = a_conn ((k, t) :: adj) m
      simp only [a_conn, ih h.2]

theorem a_push_conn_self {N A : Type} [DecidableEq N] (adj : List (N × List (N × A))) (n : N)
    (e : N × A) (h : n ∈ adj.map Prod.fst) :
    a_conn (a_push adj n e) n = a_conn adj n ++ [e] := by
  obtain ⟨La, s, Ra, e1, hL⟩ := adj_split adj n h
  subst e1
  rw [a_push_mid La Ra n s e hL, a_conn_mid La Ra n s hL, a_conn_mid La Ra n _ hL]

theorem a_push_conn_other {N A : Type} [DecidableEq N] (adj : List (N × List (N × A)))
    (n m : N) (e : N × A) (h : n ≠ m) : a_conn (a_push adj n e) m = a_conn adj m := by
  induction adj with
  | nil => rfl
  | cons p adj ih =>
    obtain ⟨k, t⟩ := p
    by_cases hk : k = n
    · subst hk
      simp only [a_push, if_true, a_conn, if_neg h]
    · simp only [a_push, if_neg hk, a_conn, ih]

theorem a_add_edge_keys {N A : Type} [DecidableEq N] (adj : List (N × List (N × A)))
    (n1 n2 m : N) (v : A) :
    m ∈ (a_add_edge adj n1 n2 v).map Prod.fst ↔ m ∈ adj.map Prod.fst ∨ m = n1 ∨ m = n2 := by
  unfold a_add_edge
  by_cases hc : n2 ∈ (a_add adj n1).map Prod.fst ∧
      n2 ∈ (a_conn (a_add adj n1) n1).map Prod.fst
  · rw [if_pos hc, a_add_keys]
    constructor
    · rintro (h | h)
      · exact Or.inl h
      · exact Or.inr (Or.inl h)
    · rintro (h | h | h)
      · exact Or.inl h
      · exact Or.inr h
      · rw [h]; exact (a_add_keys adj n1 n2).mp hc.1
  · rw [if_neg hc, a_add_keys, a_push_keys, a_add_keys]
    tauto

theorem a_add_edge_conn {N A : Type} [DecidableEq N] (adj : List (N × List (N × A)))
    (n1 n2 m : N) (v : A) :
    a_conn (a_add_edge adj n1 n2 v) m =
      if n2 ∈ (a_add adj n1).map Prod.fst ∧ n2 ∈ (a_conn adj n1).map Prod.fst then a_conn adj m
      else if m = n1 then a_conn adj n1 ++ [(n2, v)] else a_conn adj m := by
  unfold a_add_edge
  rw [a_add_conn adj n1 n1]
  by_cases hc : n2 ∈ (a_add adj n1).map Prod.fst ∧ n2 ∈ (a_conn adj n1).map Prod.fst
  · rw [if_pos hc, if_pos hc, a_add_conn]
  · rw [if_neg hc, if_neg hc, a_add_conn]
    by_cases hm : m = n1
    · subst hm
      rw [if_pos rfl, a_push_conn_self _ _ _ ((a_add_keys adj m m).mpr (Or.inr rfl)), a_add_conn]
    · rw [if_neg hm, a_push_conn_other _ _ _ _ (fun h => hm h.symm), a_add_conn]

theorem a_conn_mem {N A : Type} [DecidableEq N] (adj : List (N × List (N × A))) (n : N)
    (h : n ∈ adj.map Prod.fst) : (n, a_conn adj n) ∈ adj := by
  obtain ⟨La, s, Ra, e1, hL⟩ := adj_split adj n h
  subst e1
  rw [a_conn_mid La Ra n s hL]
  simp

theorem a_conn_of_mem {N A : Type} [DecidableEq N] (adj : List (N × List (N × A)))
    (hnd : (adj.map Prod.fst).Nodup) (p : N × List (N × A)) (hp : p ∈ adj) :
    a_conn adj p.1 = p.2 := by
  induction adj with
  | nil => simp at hp
  | cons q adj ih =>
    obtain ⟨k, t⟩ := q
    simp only [List.map_cons, List.nodup_cons] at hnd
    simp only [List.mem_cons] at hp
    rcases hp with rfl | hp
    · simp [a_conn]
    · have hk : k ≠ p.1 := by
        intro hk
        apply hnd.1
        rw [hk]
        exact List.mem_map_of_mem _ hp
      simp only [a_conn, if_neg hk]
      exact ih hnd.2 hp

theorem AWF_nil {N A : Type} : AWF ([] : List (N × List (N × A))) := by
  refine ⟨List.nodup_nil, ?_, ?_⟩ <;> intro p hp <;> simp at hp

theorem AWF_dst {N A : Type} [DecidableEq N] (adj : List (N × List (N × A))) (h : AWF adj)
    (n d : N) (hd : d ∈ (a_conn adj n).map Prod.fst) : d ∈ adj.map Prod.fst := by
  by_cases hn : n ∈ adj.map Prod.fst
  · obtain ⟨e, he, rfl⟩ := List.mem_map.mp hd
    exact h.2.1 _ (a_conn_mem adj n hn) e he
  · rw [a_conn_absent adj n hn] at hd
    simp at hd

theorem AWF_conn_nodup {N A : Type} [DecidableEq N] (adj : List (N × List (N × A)))
    (h : AWF adj) (n : N) : ((a_conn adj n).map Prod.fst).Nodup := by
  by_cases hn : n ∈ adj.map Prod.fst
  · exact h.2.2 _ (a_conn_mem adj n hn)
  · rw [a_conn_absent adj n hn]
    exact List.nodup_nil

theorem AWF_add {N A : Type} [DecidableEq N] (adj : List (N × List (N × A))) (h : AWF adj)
    (n : N) : AWF (a_add adj n) := by
  unfold a_add
  by_cases hn : n ∈ adj.map Prod.fst
  · rw [if_pos hn]; exact h
  · rw [if_neg hn]
    obtain ⟨h1, h2, h3⟩ := h
    refine ⟨?_, ?_, ?_⟩
    · rw [List.map_append, List.nodup_append]
      refine ⟨h1, by simp, ?_⟩
      intro a ha hb
      simp only [List.map_cons, List.map_nil, List.mem_singleton] at hb
      exact hn (hb ▸ ha)
    · intro p hp e he
      rw [List.mem_append] at hp
      rcases hp with hp | hp
      · rw [List.map_append, List.mem_append]
        exact Or.inl (h2 p hp e he)
      · simp only [List.mem_singleton] at hp
        subst hp
        simp at he
    · intro p hp
      rw [List.mem_append] at hp
      rcases hp with hp | hp
      · exact h3 p hp
      · simp only [List.mem_singleton] at hp
        subst hp
        exact List.nodup_nil

theorem a_add_mem {N A : Type} [DecidableEq N] (adj : List (N × List (N × A))) (n : N)
    (p : N × List (N × A)) (hp : p ∈ a_add adj n) : p ∈ adj ∨ p = (n, []) := by
  unfold a_add at hp
  by_cases hn : n ∈ adj.map Prod.fst
  · rw [if_pos hn] at hp; exact Or.inl hp
  · rw [if_neg hn, List.mem_append, List.mem_singleton] at hp; exact hp

theorem a_add_nodup {N A : Type} [DecidableEq N] (adj : List (N × List (N × A))) (n : N)
    (h : (adj.map Prod.fst).Nodup) : ((a_add adj n).map Prod.fst).Nodup := by
  unfold a_add
  by_cases hn : n ∈ adj.map Prod.fst
  · rw [if_pos hn]; exact h
  · rw [if_neg hn, List.map_append, List.nodup_append]
    refine ⟨h, by simp, ?_⟩
    intro a ha hb
    simp only [List.map_cons, List.map_nil, List.mem_singleton] at hb
    exact hn (hb ▸ ha)

theorem AWF_push_add {N A : Type} [DecidableEq N] (adj : List (N × List (N × A)))
    (h : AWF adj) (n1 n2 : N) (v : A) (h1 : n1 ∈ adj.map Prod.fst)
    (h2 : n2 ∉ (a_conn adj n1).map Prod.fst) :
    AWF (a_add (a_push adj n1 (n2, v)) n2) := by
  obtain ⟨hnd, hdst, hpar⟩ := h
  have hkeys : ∀ m, m ∈ adj.map Prod.fst → m ∈ (a_add (a_push adj n1 (n2, v)) n2).map Prod.fst := by
    intro m hm
    rw [a_add_keys, a_push_keys]
    exact Or.inl hm
  have hn2 : n2 ∈ (a_add (a_push adj n1 (n2, v)) n2).map Prod.fst := by
    rw [a_add_keys]; exact Or.inr rfl
  obtain ⟨La, s, Ra, e, hL⟩ := adj_split adj n1 h1
  have hs : a_conn adj n1 = s := by rw [e]; exact a_conn_mid La Ra n1 s hL
  have hpush : a_push adj n1 (n2, v) = La ++ (n1, s ++ [(n2, v)]) :: Ra := by
    rw [e]; exact a_push_mid La Ra n1 s _ hL
  have hmem : ∀ p ∈ a_add (a_push adj n1 (n2, v)) n2,
      p ∈ adj ∨ p = (n2, []) ∨ p = (n1, s ++ [(n2, v)]) := by
    intro p hp
    rcases a_add_mem _ _ p hp with hp | hp
    · rw [hpush, List.mem_append, List.mem_cons] at hp
      rcases hp with hp | hp | hp
      · left; rw [e]; exact List.mem_append_left _ hp
      · right; right; exact hp
      · left; rw [e]; exact List.mem_append_right _ (List.mem_cons_of_mem _ hp)
    · right; left; exact hp
  have hsin : (n1, s) ∈ adj := by rw [e]; simp
  refine ⟨?_, ?_, ?_⟩
  · apply a_add_nodup
    rw [a_push_keys]
    exact hnd
  · intro p hp x hx
    rcases hmem p hp with hp | hp | hp
    · exact hkeys _ (hdst p hp x hx)
    · subst hp; simp at hx
    · subst hp
      simp only [List.mem_append, List.mem_singleton] at hx
      rcases hx with hx | hx
      · exact hkeys _ (hdst _ hsin x hx)
      · subst hx; exact hn2
  · intro p hp
    rcases hmem p hp with hp | hp | hp
    · exact hpar p hp
    · subst hp; exact List.nodup_nil
    · subst hp
      simp only [List.map_append, List.map_cons, List.map_nil]
      rw [List.nodup_append]
      refine ⟨hpar _ hsin, List.nodup_singleton _, ?_⟩
      intro a ha hb
      simp only [List.mem_singleton] at hb
      rw [hs] at h2
      exact h2 (hb ▸ ha)

theorem AWF_add_edge {N A : Type} [DecidableEq N] (adj : List (N × List (N × A)))
    (h : AWF adj) (n1 n2 : N) (v : A) : AWF (a_add_edge adj n1 n2 v) := by
  unfold a_add_edge
  by_cases hc : n2 ∈ (a_add adj n1).map Prod.fst ∧
      n2 ∈ (a_conn (a_add adj n1) n1).map Prod.fst
  · rw [if_pos hc]; exact AWF_add adj h n1
  · rw [if_neg hc]
    have hw := AWF_add adj h n1
    apply AWF_push_add _ hw
    · exact (a_add_keys adj n1 n1).mpr (Or.inr rfl)
    · intro hd
      exact hc ⟨AWF_dst _ hw n1 n2 hd, hd⟩

theorem AWF_apply {N A : Type} [DecidableEq N] (adj : List (N × List (N × A)))
    (h : AWF adj) (op : Op N A) : AWF (a_apply adj op) := by
  cases op with
  | node n => exact AWF_add adj h n
  | edge n1 n2 v => exact AWF_add_edge adj h n1 n2 v

theorem AWF_run {N A : Type} [DecidableEq N] (ops : List (Op N A))
    (adj : List (N × List (N × A))) (h : AWF adj) : AWF (a_run adj ops) := by
  induction ops generalizing adj with
  | nil => exact h
  | cons op ops ih => exact ih _ (AWF_apply adj h op)

/-- Every built graph is represented by a well-formed adjacency list. -/
theorem build_shape {N A : Type} [DecidableEq N] (ops : List (Op N A))
    (g : internalgraph N A) (h : build ops = some g) : ∃ adj, AWF adj ∧ g = repr adj := by
  rw [build_repr] at h
  exact ⟨a_run [] ops, AWF_run ops [] AWF_nil, (Option.some.inj h).symm⟩

/-- With every destination a node, `add(n1, n2, v)` pushes the edge exactly when
the slice of `n1` has no entry for `n2`. -/
theorem a_add_edge_conn_wf {N A : Type} [DecidableEq N] (adj : List (N × List (N × A)))
    (h : AWF adj) (n1 n2 m : N) (v : A) :
    a_conn (a_add_edge adj n1 n2 v) m =
      if n2 ∈ (a_conn adj n1).map Prod.fst then a_conn adj m
      else if m = n1 then a_conn adj n1 ++ [(n2, v)] else a_conn adj m := by
  rw [a_add_edge_conn]
  by_cases hd : n2 ∈ (a_conn adj n1).map Prod.fst
  · have hk : n2 ∈ (a_add adj n1).map Prod.fst :=
      (a_add_keys adj n1 n2).mpr (Or.inl (AWF_dst adj h n1 n2 hd))
    rw [if_pos ⟨hk, hd⟩, if_pos hd]
  · rw [if_neg (fun hc => hd hc.2), if_neg hd]

/-! ## Queries on a represented graph -/

theorem nodes_by_rank_repr {N A : Type} (adj : List (N × List (N × A))) :
    nodes_by_rank (repr adj) = adj.map Prod.fst := by
  unfold nodes_by_rank nodes
  show ((rank_table 1 (adj.map Prod.fst)).insertionSort _).map Prod.fst = _
  rw [List.Sorted.insertionSort_eq (rank_table_sorted _ 1), rank_table_keys]

theorem concat_connections_repr {N A : Type} [DecidableEq N] (adj : List (N × List (N × A)))
    (L : List N) (h : ∀ n ∈ L, n ∈ adj.map Prod.fst) :
    concat_connections (repr adj) L = some ((L.map (a_conn adj)).flatten) := by
  induction L with
  | nil => rfl
  | cons n L ih =>
    have h1 := connections_repr adj n (h n (List.mem_cons_self _ _))
    have h2 := ih (fun m hm => h m (List.mem_cons_of_mem _ hm))
    simp only [concat_connections, h1, h2, List.map_cons, List.flatten_cons]

theorem slices_eq_conn {N A : Type} [DecidableEq N] (adj : List (N × List (N × A)))
    (hnd : (adj.map Prod.fst).Nodup) :
    (adj.map Prod.fst).map (a_conn adj) = adj.map Prod.snd := by
  rw [List.map_map]
  apply List.map_congr_left
  intro p hp
  exact a_conn_of_mem adj hnd p hp

theorem connections_repr_any {N A : Type} [DecidableEq N] (adj : List (N × List (N × A)))
    (n : N) : ∃ gq, connections (repr adj) n = some (gq, a_conn adj n) := by
  by_cases h : n ∈ adj.map Prod.fst
  · exact ⟨_, connections_repr adj n h⟩
  · obtain ⟨cN, hc⟩ := connections_repr_unknown adj n h
    rw [a_conn_absent adj n h]
    exact ⟨_, hc⟩

theorem nodes_count_repr {N A : Type} [DecidableEq N] (adj : List (N × List (N × A)))
    (n : N) : map_count (nodes (repr adj)) n ≠ 0 ↔ n ∈ adj.map Prod.fst :=
  fNodes_count_iff adj n

theorem find_edge_repr_wf {N A : Type} [DecidableEq N] (adj : List (N × List (N × A)))
    (h : AWF adj) (n1 n2 : N) :
    find_edge (repr adj) n1 n2 =
      some (repr adj, decide (n2 ∈ (a_conn adj n1).map Prod.fst)) := by
  rw [find_edge_repr]
  by_cases hd : n2 ∈ (a_conn adj n1).map Prod.fst
  · rw [decide_eq_true hd, decide_eq_true ⟨AWF_dst adj h n1 n2 hd, hd⟩]
  · rw [decide_eq_false hd, decide_eq_false (fun hc => hd hc.2)]

theorem filter_dst_absent {N A : Type} [DecidableEq N] (l : List (N × A)) (d : N)
    (h : d ∉ l.map Prod.fst) : l.filter (fun e => decide (e.1 = d)) = [] := by
  rw [List.filter_eq_nil_iff]
  intro e he hd
  apply h
  have : e.1 = d := of_decide_eq_true hd
  rw [← this]
  exact List.mem_map_of_mem _ he

theorem filter_dst_length {N A : Type} [DecidableEq N] (l : List (N × A)) (d : N)
    (hnd : (l.map Prod.fst).Nodup) (h : d ∈ l.map Prod.fst) :
    (l.filter (fun e => decide (e.1 = d))).length = 1 := by
  induction l with
  | nil => simp at h
  | cons e l ih =>
    simp only [List.map_cons, List.nodup_cons] at hnd
    by_cases he : e.1 = d
    · have hd : d ∉ l.map Prod.fst := he ▸ hnd.1
      rw [List.filter_cons_of_pos (by simpa using he), filter_dst_absent l d hd]
      rfl
    · have hd : d ∈ l.map Prod.fst := by
        simp only [List.map_cons, List.mem_cons] at h
        rcases h with h | h
        · exact absurd h.symm he
        · exact h
      rw [List.filter_cons_of_neg (by simpa using he)]
      exact ih hnd.2 hd

theorem a_add_edge_present {N A : Type} [DecidableEq N] (adj : List (N × List (N × A)))
    (n1 n2 : N) (v : A) (h1 : n1 ∈ adj.map Prod.fst) (h2 : n2 ∈ adj.map Prod.fst)
    (hd : n2 ∈ (a_conn adj n1).map Prod.fst) : a_add_edge adj n1 n2 v = adj := by
  have ha : a_add adj n1 = adj := by
    unfold a_add; rw [if_pos h1]
  unfold a_add_edge
  rw [ha, if_pos ⟨h2, hd⟩]

theorem snd_unique_of_nodup {N A : Type} (l : List (N × A)) (hnd : (l.map Prod.fst).Nodup)
    (d : N) (a b : A) (ha : (d, a) ∈ l) (hb : (d, b) ∈ l) : a = b := by
  induction l with
  | nil => simp at ha
  | cons e l ih =>
    simp only [List.map_cons, List.nodup_cons] at hnd
    simp only [List.mem_cons] at ha hb
    rcases ha with ha | ha <;> rcases hb with hb | hb
    · rw [← ha] at hb
      exact (Prod.mk.inj hb).2.symm
    · exfalso
      have hm : d ∈ l.map Prod.fst := List.mem_map_of_mem Prod.fst hb
      apply hnd.1
      rw [← ha]
      exact hm
    · exfalso
      have hm : d ∈ l.map Prod.fst := List.mem_map_of_mem Prod.fst ha
      apply hnd.1
      rw [← hb]
      exact hm
    · exact ih hnd.2 ha hb

theorem add_registers {N A : Type} [DecidableEq N] (g : internalgraph N A) (n : N) :
    map_count (add g n).fNodes n ≠ 0 := by
  unfold add
  by_cases hc : map_count g.fNodes n ≠ 0
  · rw [if_pos hc]; exact hc
  · rw [if_neg hc]
    have h0 : map_count g.fNodes n = 0 := not_not.mp hc
    have hk : ∀ p ∈ g.fNodes, p.1 ≠ n := by
      intro p hp hpn
      apply (map_count_eq_zero_iff g.fNodes n).mp h0
      rw [← hpn]
      exact List.mem_map_of_mem Prod.fst hp
    simp only
    rw [map_assign_none _ _ _ hk, map_count_mid _ [] n _ hk]
    exact one_ne_zero

theorem add_of_registered {N A : Type} [DecidableEq N] (g : internalgraph N A) (n : N)
    (h : map_count g.fNodes n ≠ 0) : add g n = g := by
  unfold add
  rw [if_pos h]

/-! ## Union of two graphs -/

theorem add_conns_repr {N A : Type} [DecidableEq N] (cs : List (N × A))
    (adj : List (N × List (N × A))) (n : N) :
    add_conns (repr adj) n cs = some (repr (a_add_conns adj n cs)) := by
  induction cs generalizing adj with
  | nil => rfl
  | cons c cs ih => simp only [add_conns, add_edge_repr, a_add_conns, ih]

theorem add_graph_repr {N A : Type} [DecidableEq N] (order : List N)
    (a1 a2 : List (N × List (N × A))) (h : ∀ n ∈ order, n ∈ a2.map Prod.fst) :
    add_graph (repr a1) (repr a2) order = some (repr (a_union a1 a2 order), repr a2) := by
  induction order generalizing a1 with
  | nil => rfl
  | cons n order ih =>
    have h1 := connections_repr a2 n (h n (List.mem_cons_self _ _))
    simp only [add_graph, h1, add_repr, add_conns_repr, a_union]
    exact ih _ (fun m hm => h m (List.mem_cons_of_mem _ hm))

theorem AWF_add_conns {N A : Type} [DecidableEq N] (cs : List (N × A))
    (adj : List (N × List (N × A))) (h : AWF adj) (n : N) : AWF (a_add_conns adj n cs) := by
  induction cs generalizing adj with
  | nil => exact h
  | cons c cs ih => exact ih _ (AWF_add_edge adj h n c.1 c.2)

theorem AWF_union {N A : Type} [DecidableEq N] (order : List N)
    (a1 a2 : List (N × List (N × A))) (h : AWF a1) : AWF (a_union a1 a2 order) := by
  induction order generalizing a1 with
  | nil => exact h
  | cons n order ih => exact ih _ (AWF_add_conns _ _ (AWF_add a1 h n) n)

theorem a_add_conns_keys {N A : Type} [DecidableEq N] (cs : List (N × A))
    (adj : List (N × List (N × A))) (n m : N) (hn : n ∈ adj.map Prod.fst) :
    m ∈ (a_add_conns adj n cs).map Prod.fst ↔ m ∈ adj.map Prod.fst ∨ m ∈ cs.map Prod.fst := by
  induction cs generalizing adj with
  | nil => simp [a_add_conns]
  | cons c cs ih =>
    have hn1 : n ∈ (a_add_edge adj n c.1 c.2).map Prod.fst :=
      (a_add_edge_keys adj n c.1 n c.2).mpr (Or.inl hn)
    simp only [a_add_conns, ih _ hn1, a_add_edge_keys, List.map_cons, List.mem_cons]
    constructor
    · rintro ((h | h | h) | h)
      · exact Or.inl h
      · rw [h]; exact Or.inl hn
      · exact Or.inr (Or.inl h)
      · exact Or.inr (Or.inr h)
    · rintro (h | h | h)
      · exact Or.inl (Or.inl h)
      · exact Or.inl (Or.inr (Or.inr h))
      · exact Or.inr h

theorem a_union_keys {N A : Type} [DecidableEq N] (order : List N)
    (a1 a2 : List (N × List (N × A))) (m : N) :
    m ∈ (a_union a1 a2 order).map Prod.fst ↔
      m ∈ a1.map Prod.fst ∨ m ∈ order ∨ ∃ n ∈ order, m ∈ (a_conn a2 n).map Prod.fst := by
  induction order generalizing a1 with
  | nil => simp [a_union]
  | cons n order ih =>
    have hn : n ∈ (a_add a1 n).map Prod.fst := (a_add_keys a1 n n).mpr (Or.inr rfl)
    simp only [a_union, ih, a_add_conns_keys _ _ n m hn, a_add_keys, List.mem_cons]
    constructor
    · rintro (((h | h) | h) | h | ⟨x, hx, h⟩)
      · exact Or.inl h
      · exact Or.inr (Or.inl (Or.inl h))
      · exact Or.inr (Or.inr ⟨n, Or.inl rfl, h⟩)
      · exact Or.inr (Or.inl (Or.inr h))
      · exact Or.inr (Or.inr ⟨x, Or.inr hx, h⟩)
    · rintro (h | (h | h) | ⟨x, (hx | hx), h⟩)
      · exact Or.inl (Or.inl (Or.inl h))
      · exact Or.inl (Or.inl (Or.inr h))
      · exact Or.inr (Or.inl h)
      · exact Or.inl (Or.inr (hx ▸ h))
      · exact Or.inr (Or.inr ⟨x, hx, h⟩)

theorem mem_dsts_iff {N A : Type} (l : List (N × A)) (d : N) :
    d ∈ l.map Prod.fst ↔ ∃ a, (d, a) ∈ l := by
  constructor
  · intro h
    obtain ⟨e, he, rfl⟩ := List.mem_map.mp h
    exact ⟨e.2, he⟩
  · rintro ⟨a, ha⟩
    exact List.mem_map_of_mem Prod.fst ha

theorem a_add_edge_mem {N A : Type} [DecidableEq N] (adj : List (N × List (N × A)))
    (h : AWF adj) (n1 n2 s d : N) (v a : A) :
    (d, a) ∈ a_conn (a_add_edge adj n1 n2 v) s ↔
      (d, a) ∈ a_conn adj s ∨
        (s = n1 ∧ d = n2 ∧ a = v ∧ n2 ∉ (a_conn adj n1).map Prod.fst) := by
  rw [a_add_edge_conn_wf adj h]
  by_cases hc : n2 ∈ (a_conn adj n1).map Prod.fst
  · rw [if_pos hc]
    constructor
    · exact Or.inl
    · rintro (h1 | ⟨_, _, _, h1⟩)
      · exact h1
      · exact absurd hc h1
  · rw [if_neg hc]
    by_cases hs : s = n1
    · subst hs
      rw [if_pos rfl, List.mem_append, List.mem_singleton, Prod.mk.injEq]
      constructor
      · rintro (h1 | ⟨h1, h2⟩)
        · exact Or.inl h1
        · exact Or.inr ⟨rfl, h1, h2, hc⟩
      · rintro (h1 | ⟨_, h1, h2, _⟩)
        · exact Or.inl h1
        · exact Or.inr ⟨h1, h2⟩
    · rw [if_neg hs]
      constructor
      · exact Or.inl
      · rintro (h1 | ⟨h1, _⟩)
        · exact h1
        · exact absurd h1 hs

theorem a_add_conns_mem {N A : Type} [DecidableEq N] (cs : List (N × A))
    (adj : List (N × List (N × A))) (h : AWF adj) (hcs : (cs.map Prod.fst).Nodup)
    (n s d : N) (a : A) :
    (d, a) ∈ a_conn (a_add_conns adj n cs) s ↔
      (d, a) ∈ a_conn adj s ∨
        (s = n ∧ (d, a) ∈ cs ∧ d ∉ (a_conn adj n).map Prod.fst) := by
  induction cs generalizing adj with
  | nil => simp [a_add_conns]
  | cons c cs ih =>
    obtain ⟨c1, c2⟩ := c
    simp only [List.map_cons, List.nodup_cons] at hcs
    have hw := AWF_add_edge adj h n c1 c2
    have hdst : ∀ x, x ∈ (a_conn (a_add_edge adj n c1 c2) n).map Prod.fst ↔
        x ∈ (a_conn adj n).map Prod.fst ∨ (x = c1 ∧ c1 ∉ (a_conn adj n).map Prod.fst) := by
      intro x
      rw [mem_dsts_iff, mem_dsts_iff]
      constructor
      · rintro ⟨b, hb⟩
        rcases (a_add_edge_mem adj h n c1 n x c2 b).mp hb with h1 | ⟨_, h1, _, h2⟩
        · exact Or.inl ⟨b, h1⟩
        · exact Or.inr ⟨h1, h2⟩
      · rintro (⟨b, hb⟩ | ⟨h1, h2⟩)
        · exact ⟨b, (a_add_edge_mem adj h n c1 n x c2 b).mpr (Or.inl hb)⟩
        · exact ⟨c2, (a_add_edge_mem adj h n c1 n x c2 c2).mpr (Or.inr ⟨rfl, h1, rfl, h2⟩)⟩
    simp only [a_add_conns]
    rw [ih _ hw hcs.2, a_add_edge_mem adj h, hdst, List.mem_cons, Prod.mk.injEq]
    constructor
    · rintro ((h1 | ⟨h1, h2, h3, h4⟩) | ⟨h1, h2, h3⟩)
      · exact Or.inl h1
      · exact Or.inr ⟨h1, Or.inl ⟨h2, h3⟩, h2 ▸ h4⟩
      · exact Or.inr ⟨h1, Or.inr h2, fun hx => h3 (Or.inl hx)⟩
    · rintro (h1 | ⟨h1, (⟨h2, h3⟩ | h2), h4⟩)
      · exact Or.inl (Or.inl h1)
      · exact Or.inl (Or.inr ⟨h1, h2, h3, h2 ▸ h4⟩)
      · refine Or.inr ⟨h1, h2, ?_⟩
        rintro (hx | ⟨hx, _⟩)
        · exact h4 hx
        · apply hcs.1
          rw [← hx]
          exact List.mem_map_of_mem Prod.fst h2

theorem a_union_mem {N A : Type} [DecidableEq N] (order : List N)
    (a1 a2 : List (N × List (N × A))) (h1 : AWF a1) (h2 : AWF a2) (hnd : order.Nodup)
    (s d : N) (a : A) :
    (d, a) ∈ a_conn (a_union a1 a2 order) s ↔
      (d, a) ∈ a_conn a1 s ∨
        (s ∈ order ∧ (d, a) ∈ a_conn a2 s ∧ d ∉ (a_conn a1 s).map Prod.fst) := by
  induction order generalizing a1 with
  | nil => simp [a_union]
  | cons n order ih =>
    rw [List.nodup_cons] at hnd
    have hw := AWF_add a1 h1 n
    have hw1 := AWF_add_conns (a_conn a2 n) _ hw n
    have M1 : ∀ s d a, (d, a) ∈ a_conn (a_add_conns (a_add a1 n) n (a_conn a2 n)) s ↔
        (d, a) ∈ a_conn a1 s ∨
          (s = n ∧ (d, a) ∈ a_conn a2 n ∧ d ∉ (a_conn a1 n).map Prod.fst) := by
      intro s d a
      rw [a_add_conns_mem _ _ hw (AWF_conn_nodup a2 h2 n), a_add_conn, a_add_conn]
    have M2 : ∀ s, s ≠ n → ∀ d,
        (d ∈ (a_conn (a_add_conns (a_add a1 n) n (a_conn a2 n)) s).map Prod.fst ↔
          d ∈ (a_conn a1 s).map Prod.fst) := by
      intro s hs d
      rw [mem_dsts_iff, mem_dsts_iff]
      constructor
      · rintro ⟨b, hb⟩
        rcases (M1 s d b).mp hb with hb | ⟨hb, _⟩
        · exact ⟨b, hb⟩
        · exact absurd hb hs
      · rintro ⟨b, hb⟩
        exact ⟨b, (M1 s d b).mpr (Or.inl hb)⟩
    simp only [a_union]
    rw [ih _ hw1 hnd.2, M1, List.mem_cons]
    constructor
    · rintro ((hx | ⟨hx, hy, hz⟩) | ⟨hx, hy, hz⟩)
      · exact Or.inl hx
      · exact Or.inr ⟨Or.inl hx, hx ▸ hy, hx ▸ hz⟩
      · have hs : s ≠ n := fun e => hnd.1 (e ▸ hx)
        exact Or.inr ⟨Or.inr hx, hy, fun hd => hz ((M2 s hs d).mpr hd)⟩
    · rintro (hx | ⟨(hx | hx), hy, hz⟩)
      · exact Or.inl (Or.inl hx)
      · exact Or.inl (Or.inr ⟨hx, hx ▸ hy, hx ▸ hz⟩)
      · have hs : s ≠ n := fun e => hnd.1 (e ▸ hx)
        exact Or.inr ⟨hx, hy, fun hd => hz ((M2 s hs d).mp hd)⟩

theorem stores_repr {N A : Type} [DecidableEq N] (adj : List (N × List (N × A)))
    (s d : N) (a : A) : stores (repr adj) s d a ↔ (d, a) ∈ a_conn adj s := by
  obtain ⟨gq, hq⟩ := connections_repr_any adj s
  unfold stores
  constructor
  · rintro ⟨g1, c, hc, hm⟩
    rw [hq] at hc
    have := (Prod.mk.inj (Option.some.inj hc)).2
    rw [this]
    exact hm
  · intro hm
    exact ⟨gq, _, hq, hm⟩

theorem stores_of_connections {N A : Type} [DecidableEq N] (g gq : internalgraph N A) (s : N)
    (c : List (N × A)) (h : connections g s = some (gq, c)) (d : N) (a : A) :
    stores g s d a ↔ (d, a) ∈ c := by
  unfold stores
  constructor
  · rintro ⟨g1, c1, hc, hm⟩
    rw [h] at hc
    have := (Prod.mk.inj (Option.some.inj hc)).2
    rw [this]
    exact hm
  · intro hm
    exact ⟨gq, c, h, hm⟩

/-- Content of the receiver after the union of two built graphs. -/
theorem add_graph_built {N A : Type} [DecidableEq N] (ops1 ops2 : List (Op N A))
    (g1 g2 : internalgraph N A) (h1 : build ops1 = some g1) (h2 : build ops2 = some g2)
    (order : List N) (hperm : order.Perm ((nodes g2).map Prod.fst)) :
    ∃ a3, AWF a3 ∧ add_graph g1 g2 order = some (repr a3, g2) ∧
      (∀ n, n ∈ a3.map Prod.fst ↔
        (map_count (nodes g1) n ≠ 0 ∨ map_count (nodes g2) n ≠ 0)) ∧
      (∀ s d a, (d, a) ∈ a_conn a3 s ↔
        (stores g1 s d a ∨ ((¬ ∃ b, stores g1 s d b) ∧ stores g2 s d a))) := by
  obtain ⟨a1, hw1, rfl⟩ := build_shape ops1 g1 h1
  obtain ⟨a2, hw2, rfl⟩ := build_shape ops2 g2 h2
  have hk2 : (nodes (repr a2)).map Prod.fst = a2.map Prod.fst := rank_table_keys _ 1
  rw [hk2] at hperm
  have hmem : ∀ n, n ∈ order ↔ n ∈ a2.map Prod.fst := fun n => hperm.mem_iff
  have hnd : order.Nodup := hperm.nodup_iff.mpr hw2.1
  refine ⟨a_union a1 a2 order, AWF_union order a1 a2 hw1,
    add_graph_repr order a1 a2 (fun n hn => (hmem n).mp hn), ?_, ?_⟩
  · intro n
    rw [nodes_count_repr, nodes_count_repr, a_union_keys]
    constructor
    · rintro (hx | hx | ⟨m, _, hx⟩)
      · exact Or.inl hx
      · exact Or.inr ((hmem n).mp hx)
      · exact Or.inr (AWF_dst a2 hw2 m n hx)
    · rintro (hx | hx)
      · exact Or.inl hx
      · exact Or.inr (Or.inl ((hmem n).mpr hx))
  · intro s d a
    simp only [stores_repr]
    rw [a_union_mem order a1 a2 hw1 hw2 hnd, mem_dsts_iff]
    constructor
    · rintro (hx | ⟨_, hy, hz⟩)
      · exact Or.inl hx
      · exact Or.inr ⟨hz, hy⟩
    · rintro (hx | ⟨hz, hy⟩)
      · exact Or.inl hx
      · refine Or.inr ⟨?_, hy, hz⟩
        rw [hmem]
        by_contra hs
        rw [a_conn_absent a2 s hs] at hy
        simp at hy

/-! ## The store of graphs -/

theorem store_get_set_same {G : Type} (st : List G) (i : Nat) (g g0 : G)
    (h : st[i]? = some g0) : (st.set i g)[i]? = some g := by
  induction st generalizing i with
  | nil => simp at h
  | cons x st ih =>
    cases i with
    | zero => simp
    | succ i =>
      simp only [List.getElem?_cons_succ] at h
      simp only [List.set_cons_succ, List.getElem?_cons_succ]
      exact ih i h

theorem store_get_set_other {G : Type} (st : List G) (i j : Nat) (g : G) (h : i ≠ j) :
    (st.set i g)[j]? = st[j]? := by
  induction st generalizing i j with
  | nil => simp
  | cons x st ih =>
    cases i with
    | zero =>
      cases j with
      | zero => exact absurd rfl h
      | succ j => simp
    | succ i =>
      cases j with
      | zero => simp
      | succ j =>
        simp only [List.set_cons_succ, List.getElem?_cons_succ]
        exact ih i j (fun e => h (congrArg Nat.succ e))

theorem store_set_set {G : Type} (st : List G) (i : Nat) (g g' : G) :
    (st.set i g).set i g' = st.set i g' := by
  induction st generalizing i with
  | nil => simp
  | cons x st ih =>
    cases i with
    | zero => simp
    | succ i => simp only [List.set_cons_succ, ih]

theorem store_set_self {G : Type} (st : List G) (i : Nat) (g : G) (h : st[i]? = some g) :
    st.set i g = st := by
  induction st generalizing i with
  | nil => simp
  | cons x st ih =>
    cases i with
    | zero =>
      simp only [List.getElem?_cons_zero, Option.some.injEq] at h
      simp [h]
    | succ i =>
      simp only [List.getElem?_cons_succ] at h
      simp only [List.set_cons_succ, ih i h]

/-! ## Ranks and the order of first appearance -/

theorem a_add_keys_eq {N A : Type} [DecidableEq N] (adj : List (N × List (N × A))) (n : N) :
    (a_add adj n).map Prod.fst = seen_add (adj.map Prod.fst) n := by
  unfold a_add seen_add
  by_cases h : n ∈ adj.map Prod.fst
  · rw [if_pos h, if_pos h]
  · rw [if_neg h, if_neg h, List.map_append]
    rfl

theorem a_add_edge_keys_eq {N A : Type} [DecidableEq N] (adj : List (N × List (N × A)))
    (n1 n2 : N) (v : A) :
    (a_add_edge adj n1 n2 v).map Prod.fst = seen_add (seen_add (adj.map Prod.fst) n1) n2 := by
  unfold a_add_edge
  by_cases hc : n2 ∈ (a_add adj n1).map Prod.fst ∧
      n2 ∈ (a_conn (a_add adj n1) n1).map Prod.fst
  · rw [if_pos hc, ← a_add_keys_eq]
    have h2 := hc.1
    unfold seen_add
    rw [if_pos h2]
  · rw [if_neg hc, a_add_keys_eq, a_push_keys, a_add_keys_eq]

theorem a_run_keys {N A : Type} [DecidableEq N] (ops : List (Op N A))
    (adj : List (N × List (N × A))) :
    (a_run adj ops).map Prod.fst = first_seen_from (adj.map Prod.fst) ops := by
  induction ops generalizing adj with
  | nil => rfl
  | cons op ops ih =>
    cases op with
    | node n => simp only [a_run, a_apply, first_seen_from, seen_op, ih, a_add_keys_eq]
    | edge n1 n2 v =>
      simp only [a_run, a_apply, first_seen_from, seen_op, ih, a_add_edge_keys_eq]

theorem rank_table_ranks {N : Type} (L : List N) (i : Int) :
    (rank_table i L).map Prod.snd = (List.range L.length).map (fun j : Nat => (j : Int) + i) := by
  induction L generalizing i with
  | nil => rfl
  | cons n L ih =>
    rw [List.length_cons, List.range_succ_eq_map, List.map_cons, List.map_map]
    simp only [rank_table, List.map_cons, ih (i + 1), Nat.cast_zero, zero_add, List.cons.injEq,
      true_and]
    apply List.map_congr_left
    intro j _
    simp only [Function.comp_apply, Nat.cast_succ]
    ring

theorem rank_table_find {N : Type} [DecidableEq N] (L : List N) (hnd : L.Nodup) (i : Int)
    (n : N) (r : Int) :
    map_find (rank_table i L) n = some r ↔ ∃ j : Nat, L[j]? = some n ∧ r = (j : Int) + i := by
  induction L generalizing i with
  | nil => simp [rank_table, map_find]
  | cons m L ih =>
    rw [List.nodup_cons] at hnd
    simp only [rank_table, map_find]
    by_cases hm : m = n
    · subst hm
      rw [if_pos rfl]
      constructor
      · intro h
        refine ⟨0, by simp, ?_⟩
        have := Option.some.inj h
        rw [← this]; simp
      · rintro ⟨j, hj, hr⟩
        cases j with
        | zero => rw [hr]; simp
        | succ j =>
          exfalso
          simp only [List.getElem?_cons_succ] at hj
          exact hnd.1 (List.getElem?_mem hj)
    · rw [if_neg hm, ih hnd.2]
      constructor
      · rintro ⟨j, hj, hr⟩
        refine ⟨j + 1, by simpa using hj, ?_⟩
        rw [hr]; push_cast; ring
      · rintro ⟨j, hj, hr⟩
        cases j with
        | zero =>
          exfalso
          simp only [List.getElem?_cons_zero, Option.some.injEq] at hj
          exact hm hj
        | succ j =>
          refine ⟨j, by simpa using hj, ?_⟩
          rw [hr]; push_cast; ring

theorem map_find_append_left {K : Type} [DecidableEq K] (m m' : List (K × Int)) (k : K)
    (r : Int) (h : map_find m k = some r) : map_find (m ++ m') k = some r := by
  induction m with
  | nil => simp [map_find] at h
  | cons p m ih =>
    obtain ⟨k', v⟩ := p
    by_cases hk : k' = k
    · simp only [List.cons_append, map_find, if_pos hk] at h ⊢
      exact h
    · simp only [map_find, if_neg hk] at h
      show map_find ((k', v) :: (m ++ m')) k = some r
      simp only [map_find, if_neg hk]
      exact ih h

theorem rank_table_seen_add {N : Type} [DecidableEq N] (L : List N) (n m : N) (r : Int)
    (h : map_find (rank_table 1 L) m = some r) :
    map_find (rank_table 1 (seen_add L n)) m = some r := by
  unfold seen_add
  by_cases hn : n ∈ L
  · rw [if_pos hn]; exact h
  · rw [if_neg hn, rank_table_append]
    exact map_find_append_left _ _ m r h

theorem rank_table_seen_new {N : Type} [DecidableEq N] (L : List N) (n : N) (hn : n ∉ L) :
    map_find (rank_table 1 (seen_add L n)) n = some ((L.length : Int) + 1) := by
  unfold seen_add
  rw [if_neg hn, rank_table_append, rank_table, rank_table, add_comm (1 : Int)]
  exact map_find_mid _ [] n _ (rank_table_ne L 1 n hn)

theorem mem_seen_add {N : Type} [DecidableEq N] (L : List N) (n m : N) :
    m ∈ seen_add L n ↔ m ∈ L ∨ m = n := by
  unfold seen_add
  by_cases hn : n ∈ L
  · rw [if_pos hn]
    constructor
    · exact Or.inl
    · rintro (h | h)
      · exact h
      · rw [h]; exact hn
  · rw [if_neg hn]; simp

/-! ## Bounds -/

theorem map_find_of_index {K : Type} [DecidableEq K] (m : List (K × Int)) (k : K) (v : Int)
    (h : map_index m k = (m, v)) : map_find m k = some v := by
  unfold map_index at h
  cases hf : map_find m k with
  | some w =>
    rw [hf] at h
    simp only [Prod.mk.injEq, true_and] at h
    rw [h]
  | none =>
    rw [hf] at h
    exfalso
    have := congrArg List.length (Prod.mk.inj h).1
    simp at this

theorem vec_insert_bounds {E : Type} (v F : List E) (pos : Int) (e : E)
    (h : vec_insert v pos e = some F) : 0 ≤ pos ∧ pos ≤ (v.length : Int) := by
  unfold vec_insert at h
  by_cases hc : 0 ≤ pos ∧ pos ≤ (v.length : Int)
  · exact hc
  · rw [if_neg hc] at h
    exact absurd h (by simp)

theorem slice_bounds_repr {N A : Type} [DecidableEq N] (adj : List (N × List (N × A)))
    (n : N) (h : n ∈ adj.map Prod.fst) :
    ∃ r lo hi, map_find (repr adj).fNodes n = some r ∧
      map_find (repr adj).csrN (r - 1) = some lo ∧ map_find (repr adj).csrN r = some hi ∧
      0 ≤ lo ∧ lo ≤ hi ∧ hi ≤ ((repr adj).csrF.length : Int) := by
  obtain ⟨La, s, Ra, e, hL⟩ := adj_split adj n h
  subst e
  have i1 := fNodes_index La Ra n s hL
  have i2 := csrN_index_lo (La.map Prod.snd) (Ra.map Prod.snd) s
    ((La.length : Int) + 1 - 1) (by simp)
  have i3 := csrN_index_hi (La.map Prod.snd) (Ra.map Prod.snd) s
    ((La.length : Int) + 1) (by simp)
  have hF : (repr (La ++ (n, s) :: Ra)).csrF =
      (La.map Prod.snd).flatten ++ s ++ (Ra.map Prod.snd).flatten := by
    show ((La ++ (n, s) :: Ra).map Prod.snd).flatten = _
    rw [List.map_append, List.map_cons, flatten_split]
  have hc : (repr (La ++ (n, s) :: Ra)).csrN =
      csrN_of (La.map Prod.snd ++ s :: Ra.map Prod.snd) := by
    show csrN_of ((La ++ (n, s) :: Ra).map Prod.snd) = _
    rw [List.map_append, List.map_cons]
  have hf : (repr (La ++ (n, s) :: Ra)).fNodes =
      rank_table 1 ((La ++ (n, s) :: Ra).map Prod.fst) := rfl
  refine ⟨(La.length : Int) + 1, ((La.map Prod.snd).flatten.length : Int),
    ((La.map Prod.snd).flatten.length : Int) + (s.length : Int), ?_, ?_, ?_, ?_, ?_, ?_⟩
  · rw [hf]; exact map_find_of_index _ _ _ i1
  · rw [hc]; exact map_find_of_index _ _ _ i2
  · rw [hc]; exact map_find_of_index _ _ _ i3
  · exact Int.natCast_nonneg _
  · have := Int.natCast_nonneg s.length
    omega
  · rw [hF]
    simp only [List.length_append]
    push_cast
    have := Int.natCast_nonneg (La.map Prod.snd).flatten.length
    have := Int.natCast_nonneg (Ra.map Prod.snd).flatten.length
    omega

/-! ## The facade on the store -/

theorem facade_add_store {N A : Type} [DecidableEq N] (st : List (internalgraph N A))
    (self : handle) (adj : List (N × List (N × A))) (n : N)
    (hs : st[self.fContent]? = some (repr adj)) :
    facade_add st self n = some (st.set self.fContent (repr (a_add adj n))) := by
  unfold facade_add
  rw [hs]
  simp only [add_repr]

theorem facade_add_conns_store {N A : Type} [DecidableEq N] (cs : List (N × A))
    (st : List (internalgraph N A)) (self : handle) (adj : List (N × List (N × A))) (n : N)
    (hs : st[self.fContent]? = some (repr adj)) :
    facade_add_conns st self n cs =
      some (st.set self.fContent (repr (a_add_conns adj n cs))) := by
  induction cs generalizing st adj with
  | nil =>
    simp only [facade_add_conns, a_add_conns]
    rw [store_set_self st _ _ hs]
  | cons c cs ih =>
    have h1 : facade_add_edge st self n c.1 c.2 =
        some (st.set self.fContent (repr (a_add_edge adj n c.1 c.2))) := by
      unfold facade_add_edge
      rw [hs]
      simp only [add_edge_repr]
    simp only [facade_add_conns, h1, a_add_conns]
    rw [ih _ _ (store_get_set_same st _ _ _ hs), store_set_set]

theorem facade_connections_store {N A : Type} [DecidableEq N] (st : List (internalgraph N A))
    (g : handle) (adj : List (N × List (N × A))) (n : N)
    (hg : st[g.fContent]? = some (repr adj)) (hn : n ∈ adj.map Prod.fst) :
    facade_connections st g n = some (st, a_conn adj n) := by
  unfold facade_connections
  rw [hg]
  simp only [connections_repr adj n hn]
  rw [store_set_self st _ _ hg]

theorem facade_add_graph_store {N A : Type} [DecidableEq N] (order : List N)
    (st : List (internalgraph N A)) (self g : handle) (a1 a2 : List (N × List (N × A)))
    (hs : st[self.fContent]? = some (repr a1)) (hg : st[g.fContent]? = some (repr a2))
    (hne : self.fContent ≠ g.fContent) (hord : ∀ n ∈ order, n ∈ a2.map Prod.fst) :
    facade_add_graph st self g order =
      some (st.set self.fContent (repr (a_union a1 a2 order))) := by
  induction order generalizing st a1 with
  | nil =>
    simp only [facade_add_graph, a_union]
    rw [store_set_self st _ _ hs]
  | cons n order ih =>
    have hn := hord n (List.mem_cons_self _ _)
    have s1 := facade_add_store st self a1 n hs
    have g1 : (st.set self.fContent (repr (a_add a1 n)))[g.fContent]? = some (repr a2) := by
      rw [store_get_set_other st _ _ _ hne]; exact hg
    have s2 := facade_connections_store _ g a2 n g1 hn
    have s3 := facade_add_conns_store (a_conn a2 n) _ self (a_add a1 n) n
      (store_get_set_same st _ _ _ hs)
    rw [store_set_set] at s3
    simp only [facade_add_graph, s1, s2, s3, a_union]
    have g3 : (st.set self.fContent
        (repr (a_add_conns (a_add a1 n) n (a_conn a2 n))))[g.fContent]? = some (repr a2) := by
      rw [store_get_set_other st _ _ _ hne]; exact hg
    rw [ih _ _ (store_get_set_same st _ _ _ hs) g3
      (fun m hm => hord m (List.mem_cons_of_mem _ hm)), store_set_set]

theorem a_add_conns_present {N A : Type} [DecidableEq N] (cs : List (N × A))
    (adj : List (N × List (N × A))) (h : AWF adj) (n : N) (hn : n ∈ adj.map Prod.fst)
    (hcs : ∀ c ∈ cs, c.1 ∈ (a_conn adj n).map Prod.fst) : a_add_conns adj n cs = adj := by
  induction cs with
  | nil => rfl
  | cons c cs ih =>
    have hc := hcs c (List.mem_cons_self _ _)
    simp only [a_add_conns]
    rw [a_add_edge_present adj n c.1 c.2 hn (AWF_dst adj h n c.1 hc) hc]
    exact ih (fun x hx => hcs x (List.mem_cons_of_mem _ hx))

theorem a_union_self {N A : Type} [DecidableEq N] (order : List N)
    (adj : List (N × List (N × A))) (h : AWF adj) (hord : ∀ n ∈ order, n ∈ adj.map Prod.fst) :
    a_union adj adj order = adj := by
  induction order with
  | nil => rfl
  | cons n order ih =>
    have hn := hord n (List.mem_cons_self _ _)
    have ha : a_add adj n = adj := by
      unfold a_add; rw [if_pos hn]
    simp only [a_union]
    rw [ha, a_add_conns_present _ adj h n hn (fun c hc => List.mem_map_of_mem Prod.fst hc)]
    exact ih (fun m hm => hord m (List.mem_cons_of_mem _ hm))

theorem facade_add_graph_self {N A : Type} [DecidableEq N] (order : List N)
    (st : List (internalgraph N A)) (self : handle) (adj : List (N × List (N × A)))
    (h : AWF adj) (hs : st[self.fContent]? = some (repr adj))
    (hord : ∀ n ∈ order, n ∈ adj.map Prod.fst) :
    facade_add_graph st self self order = some st := by
  induction order with
  | nil => rfl
  | cons n order ih =>
    have hn := hord n (List.mem_cons_self _ _)
    have ha : a_add adj n = adj := by
      unfold a_add; rw [if_pos hn]
    have s1 := facade_add_store st self adj n hs
    rw [ha, store_set_self st _ _ hs] at s1
    have s2 := facade_connections_store st self adj n hs hn
    have s3 := facade_add_conns_store (a_conn adj n) st self adj n hs
    rw [a_add_conns_present _ adj h n hn (fun c hc => List.mem_map_of_mem Prod.fst hc),
      store_set_self st _ _ hs] at s3
    simp only [facade_add_graph, s1, s2, s3]
    exact ih (fun m hm => hord m (List.mem_cons_of_mem _ hm))

/-! ## The offset table of a built graph -/

theorem offset_table_find {E : Type} (S : List (List E)) (j : Nat) (hj : j ≤ S.length) :
    map_find (offset_table 0 0 S) (j : Int) = some (((S.take j).flatten.length : Nat) : Int) := by
  have h := offset_table_index (S.take j) (S.drop j) 0 0
  rw [List.take_append_drop, List.length_take, Nat.min_eq_left hj, zero_add, zero_add] at h
  exact map_find_of_index _ _ _ h

theorem flatten_take_mono {E : Type} (S : List (List E)) (j : Nat) :
    (S.take j).flatten.length ≤ (S.take (j + 1)).flatten.length := by
  rw [List.take_succ, List.flatten_append, List.length_append]
  exact Nat.le_add_right _ _

theorem mem_csrF_repr {N A : Type} (adj : List (N × List (N × A))) (e : N × A)
    (he : e ∈ (repr adj).csrF) : ∃ p ∈ adj, e ∈ p.2 := by
  have he2 : e ∈ (adj.map Prod.snd).flatten := he
  rw [List.mem_flatten] at he2
  obtain ⟨s, hs, hes⟩ := he2
  obtain ⟨p, hp, rfl⟩ := List.mem_map.mp hs
  exact ⟨p, hp, hes⟩
/-! ## The claims -/

/-- C1. Slice partition: on a graph built by add calls, the results of
`connections(n)` for the registered nodes in increasing rank order, put one
after the other, are exactly the edge store `csrF`. -/
theorem C1_slice_partition {N A : Type} [DecidableEq N] (ops : List (Op N A))
    (g : internalgraph N A) (h : build ops = some g) :
    concat_connections g (nodes_by_rank g) = some g.csrF := by
  obtain ⟨adj, hw, rfl⟩ := build_shape ops g h
  rw [nodes_by_rank_repr, concat_connections_repr adj _ (fun n hn => hn), slices_eq_conn adj hw.1]
  rfl

theorem C1_slice_partition_witness :
    build demo_g1_ops = some demo_g1 ∧
      concat_connections demo_g1 (nodes_by_rank demo_g1) = some demo_g1.csrF :=
  ⟨rfl, C1_slice_partition demo_g1_ops demo_g1 rfl⟩

/-- C2. No-overwrite duplicate edge: on a built graph, `add(n1,n2,v1)` followed by
`add(n1,n2,v2)` succeeds and the second call returns the state left by the first;
`connections(n1)` then has exactly one entry with destination `n2`, which is
`(n2, v1)` when `find_edge` reported no edge `n1 -> n2` before the first call. -/
theorem C2_duplicate_edge_no_overwrite {N A : Type} [DecidableEq N] (ops : List (Op N A))
    (g : internalgraph N A) (h : build ops = some g) (n1 n2 : N) (v1 v2 : A) :
    ∃ g1 c, add_edge g n1 n2 v1 = some g1 ∧ add_edge g1 n1 n2 v2 = some g1 ∧
      connections g1 n1 = some (g1, c) ∧
      (c.filter (fun e => decide (e.1 = n2))).length = 1 ∧
      ((find_edge g n1 n2).map Prod.snd = some false →
        c.filter (fun e => decide (e.1 = n2)) = [(n2, v1)]) := by
  obtain ⟨adj, hw, rfl⟩ := build_shape ops g h
  have hw1 := AWF_add_edge adj hw n1 n2 v1
  have hk1 : n1 ∈ (a_add_edge adj n1 n2 v1).map Prod.fst :=
    (a_add_edge_keys adj n1 n2 n1 v1).mpr (Or.inr (Or.inl rfl))
  have hconn := a_add_edge_conn_wf adj hw n1 n2 n1 v1
  have hd : n2 ∈ (a_conn (a_add_edge adj n1 n2 v1) n1).map Prod.fst := by
    rw [hconn]
    by_cases hc : n2 ∈ (a_conn adj n1).map Prod.fst
    · rw [if_pos hc]; exact hc
    · rw [if_neg hc, if_pos rfl]; simp
  have hsame : a_add_edge (a_add_edge adj n1 n2 v1) n1 n2 v2 = a_add_edge adj n1 n2 v1 :=
    a_add_edge_present _ n1 n2 v2 hk1 (AWF_dst _ hw1 n1 n2 hd) hd
  refine ⟨repr (a_add_edge adj n1 n2 v1), a_conn (a_add_edge adj n1 n2 v1) n1,
    add_edge_repr adj n1 n2 v1, ?_, connections_repr _ n1 hk1, ?_, ?_⟩
  · rw [add_edge_repr, hsame]
  · exact filter_dst_length _ n2 (AWF_conn_nodup _ hw1 n1) hd
  · intro hno
    rw [find_edge_repr_wf adj hw] at hno
    have hc : n2 ∉ (a_conn adj n1).map Prod.fst := by
      intro hc
      rw [decide_eq_true hc] at hno
      simp at hno
    rw [hconn, if_neg hc, if_pos rfl, List.filter_append, filter_dst_absent _ n2 hc]
    simp

theorem C2_duplicate_edge_no_overwrite_witness :
    build demo_g1_ops = some demo_g1 ∧
      ∃ g1 c, add_edge demo_g1 'c' 'g' 7 = some g1 ∧ add_edge g1 'c' 'g' 9 = some g1 ∧
        connections g1 'c' = some (g1, c) ∧
        (c.filter (fun e => decide (e.1 = 'g'))).length = 1 ∧
        ((find_edge demo_g1 'c' 'g').map Prod.snd = some false →
          c.filter (fun e => decide (e.1 = 'g')) = [('g', 7)]) :=
  ⟨rfl, C2_duplicate_edge_no_overwrite demo_g1_ops demo_g1 rfl 'c' 'g' 7 9⟩

/-- C3. Insertion order within a slice: on a built graph where `find_edge` reports no
edge `n1 -> n2`, `add(n1,n2,v)` succeeds and `connections(n1)` afterwards is the
former result of `connections(n1)` (empty when `n1` was not registered) followed
by the pair `(n2, v)`. -/
theorem C3_append_within_slice {N A : Type} [DecidableEq N] (ops : List (Op N A))
    (g : internalgraph N A) (h : build ops = some g) (n1 n2 : N) (v : A)
    (hno : (find_edge g n1 n2).map Prod.snd = some false) :
    ∃ g1 gq c0, add_edge g n1 n2 v = some g1 ∧ connections g n1 = some (gq, c0) ∧
      (map_count (nodes g) n1 = 0 → c0 = []) ∧
      connections g1 n1 = some (g1, c0 ++ [(n2, v)]) := by
  obtain ⟨adj, hw, rfl⟩ := build_shape ops g h
  obtain ⟨gq, hq⟩ := connections_repr_any adj n1
  have hk1 : n1 ∈ (a_add_edge adj n1 n2 v).map Prod.fst :=
    (a_add_edge_keys adj n1 n2 n1 v).mpr (Or.inr (Or.inl rfl))
  rw [find_edge_repr_wf adj hw] at hno
  have hc : n2 ∉ (a_conn adj n1).map Prod.fst := by
    intro hc
    rw [decide_eq_true hc] at hno
    simp at hno
  refine ⟨repr (a_add_edge adj n1 n2 v), gq, a_conn adj n1, add_edge_repr adj n1 n2 v, hq, ?_, ?_⟩
  · intro h0
    apply a_conn_absent
    intro hk
    exact (nodes_count_repr adj n1).mpr hk h0
  · rw [connections_repr _ n1 hk1, a_add_edge_conn_wf adj hw, if_neg hc, if_pos rfl]

theorem C3_append_within_slice_witness :
    (build demo_g1_ops = some demo_g1 ∧
      (find_edge demo_g1 'c' 'g').map Prod.snd = some false) ∧
      ∃ g1 gq c0, add_edge demo_g1 'c' 'g' 7 = some g1 ∧
        connections demo_g1 'c' = some (gq, c0) ∧
        (map_count (nodes demo_g1) 'c' = 0 → c0 = []) ∧
        connections g1 'c' = some (g1, c0 ++ [('g', 7)]) :=
  ⟨⟨rfl, rfl⟩, C3_append_within_slice demo_g1_ops demo_g1 rfl 'c' 'g' 7 rfl⟩

/-- C4. Edge insertion leaves the other slices intact: on a built graph,
`add(n1,n2,v)` succeeds, `connections(m)` returns the same sequence before and
after it for every registered node `m` other than `n1`, and a node `n2` that the
call registers, when it is not `n1`, has an empty `connections(n2)` afterwards. -/
theorem C4_other_slices_intact {N A : Type} [DecidableEq N] (ops : List (Op N A))
    (g : internalgraph N A) (h : build ops = some g) (n1 n2 : N) (v : A) :
    ∃ g1, add_edge g n1 n2 v = some g1 ∧
      (∀ m, map_count (nodes g) m ≠ 0 → m ≠ n1 →
        ∃ c, connections g m = some (g, c) ∧ connections g1 m = some (g1, c)) ∧
      (map_count (nodes g) n2 = 0 → n2 ≠ n1 →
        map_count (nodes g1) n2 ≠ 0 ∧ connections g1 n2 = some (g1, [])) := by
  obtain ⟨adj, hw, rfl⟩ := build_shape ops g h
  have hother : ∀ m, m ≠ n1 → a_conn (a_add_edge adj n1 n2 v) m = a_conn adj m := by
    intro m hm
    rw [a_add_edge_conn_wf adj hw]
    by_cases hc : n2 ∈ (a_conn adj n1).map Prod.fst
    · rw [if_pos hc]
    · rw [if_neg hc, if_neg hm]
  refine ⟨repr (a_add_edge adj n1 n2 v), add_edge_repr adj n1 n2 v, ?_, ?_⟩
  · intro m hm hne
    have hk : m ∈ adj.map Prod.fst := (nodes_count_repr adj m).mp hm
    have hk1 : m ∈ (a_add_edge adj n1 n2 v).map Prod.fst :=
      (a_add_edge_keys adj n1 n2 m v).mpr (Or.inl hk)
    refine ⟨a_conn adj m, connections_repr adj m hk, ?_⟩
    rw [connections_repr _ m hk1, hother m hne]
  · intro h0 hne
    have hk : n2 ∉ adj.map Prod.fst := fun hk => (nodes_count_repr adj n2).mpr hk h0
    have hk1 : n2 ∈ (a_add_edge adj n1 n2 v).map Prod.fst :=
      (a_add_edge_keys adj n1 n2 n2 v).mpr (Or.inr (Or.inr rfl))
    refine ⟨(nodes_count_repr _ n2).mpr hk1, ?_⟩
    rw [connections_repr _ n2 hk1, hother n2 hne, a_conn_absent adj n2 hk]

theorem C4_other_slices_intact_witness :
    build demo_g1_ops = some demo_g1 ∧
      ∃ g1, add_edge demo_g1 'd' 'k' 5 = some g1 ∧
        (∀ m, map_count (nodes demo_g1) m ≠ 0 → m ≠ 'd' →
          ∃ c, connections demo_g1 m = some (demo_g1, c) ∧ connections g1 m = some (g1, c)) ∧
        (map_count (nodes demo_g1) 'k' = 0 → 'k' ≠ 'd' →
          map_count (nodes g1) 'k' ≠ 0 ∧ connections g1 'k' = some (g1, [])) :=
  ⟨rfl, C4_other_slices_intact demo_g1_ops demo_g1 rfl 'd' 'k' 5⟩

/-- C5. Union is additive on content: for built graphs `g1` and `g2` held by two
objects and every order of enumeration of the nodes of `g2`, `g1.add(g2)` succeeds,
the registered nodes of the result are those of `g1` and those of `g2`, an edge
`s -> d` is stored exactly when `g1` or `g2` stored one, and it is stored with
annotation `a` exactly when `g1` stored it with `a`, or `g1` stored no edge
`s -> d` and `g2` stored it with `a`. -/
theorem C5_union_additive {N A : Type} [DecidableEq N] (ops1 ops2 : List (Op N A))
    (g1 g2 : internalgraph N A) (h1 : build ops1 = some g1) (h2 : build ops2 = some g2)
    (order : List N) (hperm : order.Perm ((nodes g2).map Prod.fst)) :
    ∃ g1' g2', add_graph g1 g2 order = some (g1', g2') ∧
      (∀ n, map_count (nodes g1') n ≠ 0 ↔
        (map_count (nodes g1) n ≠ 0 ∨ map_count (nodes g2) n ≠ 0)) ∧
      (∀ s d, (∃ a, stores g1' s d a) ↔ ((∃ a, stores g1 s d a) ∨ ∃ a, stores g2 s d a)) ∧
      (∀ s d a, stores g1' s d a ↔
        (stores g1 s d a ∨ ((¬ ∃ b, stores g1 s d b) ∧ stores g2 s d a))) := by
  obtain ⟨a3, _, hrun, hkeys, hmem⟩ := add_graph_built ops1 ops2 g1 g2 h1 h2 order hperm
  refine ⟨repr a3, g2, hrun, ?_, ?_, ?_⟩
  · intro n
    rw [nodes_count_repr, hkeys]
  · intro s d
    simp only [stores_repr, hmem]
    constructor
    · rintro ⟨a, (hx | ⟨_, hx⟩)⟩
      · exact Or.inl ⟨a, hx⟩
      · exact Or.inr ⟨a, hx⟩
    · rintro (⟨a, hx⟩ | ⟨a, hx⟩)
      · exact ⟨a, Or.inl hx⟩
      · by_cases hb : ∃ b, stores g1 s d b
        · obtain ⟨b, hb⟩ := hb
          exact ⟨b, Or.inl hb⟩
        · exact ⟨a, Or.inr ⟨hb, hx⟩⟩
  · intro s d a
    rw [stores_repr, hmem]

theorem C5_union_additive_witness :
    (build demo_g1_ops = some demo_g1 ∧ build demo_g2_ops = some demo_g2 ∧
      (((nodes demo_g2).map Prod.fst).reverse).Perm ((nodes demo_g2).map Prod.fst)) ∧
      ∃ g1' g2', add_graph demo_g1 demo_g2 ((nodes demo_g2).map Prod.fst).reverse =
          some (g1', g2') ∧
        (∀ n, map_count (nodes g1') n ≠ 0 ↔
          (map_count (nodes demo_g1) n ≠ 0 ∨ map_count (nodes demo_g2) n ≠ 0)) ∧
        (∀ s d, (∃ a, stores g1' s d a) ↔
          ((∃ a, stores demo_g1 s d a) ∨ ∃ a, stores demo_g2 s d a)) ∧
        (∀ s d a, stores g1' s d a ↔
          (stores demo_g1 s d a ∨ ((¬ ∃ b, stores demo_g1 s d b) ∧ stores demo_g2 s d a))) :=
  ⟨⟨rfl, rfl, List.reverse_perm _⟩,
    C5_union_additive demo_g1_ops demo_g2_ops demo_g1 demo_g2 rfl rfl _ (List.reverse_perm _)⟩

/-- C6. Unknown-node queries are empty, not errors: on a built graph and for a
node `u` that is not registered, `connections(u)` returns the empty sequence and
both forms of `areConnected(u, m ...)` return false. -/
theorem C6_unknown_node_queries {N A : Type} [DecidableEq N] [DecidableEq A]
    (ops : List (Op N A)) (g : internalgraph N A) (h : build ops = some g) (u : N)
    (hu : map_count (nodes g) u = 0) :
    (∃ gq, connections g u = some (gq, [])) ∧
      (∀ m v, ∃ gq, areConnected g u m v = some (gq, false)) ∧
      (∀ d0 m, ∃ gq, areConnected2 d0 g u m = some (gq, false)) := by
  obtain ⟨adj, hw, rfl⟩ := build_shape ops g h
  have hk : u ∉ adj.map Prod.fst := fun hk => (nodes_count_repr adj u).mpr hk hu
  obtain ⟨cN, hc⟩ := connections_repr_unknown adj u hk
  obtain ⟨gq, hq⟩ : ∃ gq, connections (repr adj) u = some (gq, []) := ⟨_, hc⟩
  have key : ∀ m v, ∃ gq, areConnected (repr adj) u m v = some (gq, false) := by
    intro m v
    unfold areConnected
    rw [hq]
    exact ⟨gq, by simp⟩
  exact ⟨⟨gq, hq⟩, key, fun d0 m => key m d0⟩

theorem C6_unknown_node_queries_witness :
    (build demo_g1_ops = some demo_g1 ∧ map_count (nodes demo_g1) 'z' = 0) ∧
      (∃ gq, connections demo_g1 'z' = some (gq, [])) ∧
      (∀ m v, ∃ gq, areConnected demo_g1 'z' m v = some (gq, false)) ∧
      (∀ d0 m, ∃ gq, areConnected2 d0 demo_g1 'z' m = some (gq, false)) :=
  ⟨⟨rfl, rfl⟩, C6_unknown_node_queries demo_g1_ops demo_g1 rfl 'z' rfl⟩

/-- C7. Evaluation of `connections` on a node that is not registered: the call on
`g1` of `main` with the node `z` returns the empty sequence and leaves `z` in the
node table with rank 0, and a key `-1` in the offset table. -/
theorem C7_connections_registers_unknown_node :
    build demo_g1_ops = some demo_g1 ∧ map_count (nodes demo_g1) 'z' = 0 ∧
      connections demo_g1 'z' =
        some ({ fNodes := demo_g1.fNodes ++ [('z', 0)]
                csrN := demo_g1.csrN ++ [(-1, 0)]
                csrF := demo_g1.csrF }, []) ∧
      map_find (demo_g1.fNodes ++ [('z', 0)]) 'z' = some 0 :=
  ⟨rfl, rfl, rfl, rfl⟩

/-- C8. Evaluation of the two-argument `areConnected` in the scenario of `main`:
on `g3 = g1 + g2`, for every order of enumeration of the nodes of `g2` and every
value `d0` of the local `A d`, `find_edge('d','g')` is true while
`areConnected('d','g')` is true only when `d0` is 1, the annotation of the edge. -/
theorem C8_areConnected2_compares_local (d0 : Int) (order : List Char)
    (hperm : order.Perm ((nodes demo_g2).map Prod.fst)) :
    ∃ g3 g2', add_graph demo_g1 demo_g2 order = some (g3, g2') ∧
      find_edge g3 'd' 'g' = some (g3, true) ∧
      areConnected2 d0 g3 'd' 'g' = some (g3, decide (d0 = 1)) := by
  obtain ⟨a3, hw3, hrun, hkeys, hmem⟩ :=
    add_graph_built demo_g1_ops demo_g2_ops demo_g1 demo_g2 rfl rfl order hperm
  have c1 : connections demo_g1 'd' = some (demo_g1, [('g', 1)]) := rfl
  have c2 : ∃ gq, connections demo_g2 'd' = some (gq, []) := ⟨_, rfl⟩
  obtain ⟨gq, c2⟩ := c2
  have hconn : ∀ x a, (x, a) ∈ a_conn a3 'd' ↔ (x = 'g' ∧ a = 1) := by
    intro x a
    rw [hmem]
    simp only [stores_of_connections _ _ _ _ c1, stores_of_connections _ _ _ _ c2,
      List.mem_singleton, Prod.mk.injEq, List.not_mem_nil, and_false, or_false]
  have hd : 'd' ∈ a3.map Prod.fst := (hkeys 'd').mpr (Or.inl (by decide))
  refine ⟨repr a3, demo_g2, hrun, ?_, ?_⟩
  · rw [find_edge_repr_wf a3 hw3]
    have : 'g' ∈ (a_conn a3 'd').map Prod.fst :=
      (mem_dsts_iff _ _).mpr ⟨1, (hconn 'g' 1).mpr ⟨rfl, rfl⟩⟩
    rw [decide_eq_true this]
  · unfold areConnected2 areConnected
    rw [connections_repr a3 'd' hd]
    simp only [hconn, true_and]

theorem C8_areConnected2_compares_local_witness :
    (((nodes demo_g2).map Prod.fst).reverse).Perm ((nodes demo_g2).map Prod.fst) ∧
      ∃ g3 g2', add_graph demo_g1 demo_g2 ((nodes demo_g2).map Prod.fst).reverse =
          some (g3, g2') ∧
        find_edge g3 'd' 'g' = some (g3, true) ∧
        areConnected2 0 g3 'd' 'g' = some (g3, decide ((0 : Int) = 1)) :=
  ⟨List.reverse_perm _,
    C8_areConnected2_compares_local 0 ((nodes demo_g2).map Prod.fst).reverse
      (List.reverse_perm _)⟩

/-- C9. `areConnected` with an annotation is a filtered existence check: on a built
graph the call succeeds and returns true exactly when `find_edge(n1,n2)` is true
and the annotation stored with destination `n2` in `connections(n1)` is `v`. -/
theorem C9_areConnected_filtered {N A : Type} [DecidableEq N] [DecidableEq A]
    (ops : List (Op N A)) (g : internalgraph N A) (h : build ops = some g) (n1 n2 : N)
    (v : A) :
    ∃ gq c b, connections g n1 = some (gq, c) ∧ areConnected g n1 n2 v = some (gq, b) ∧
      (b = true ↔ (n2, v) ∈ c) ∧
      (b = true ↔
        ((find_edge g n1 n2).map Prod.snd = some true ∧ ∀ a, (n2, a) ∈ c → a = v)) := by
  obtain ⟨adj, hw, rfl⟩ := build_shape ops g h
  obtain ⟨gq, hq⟩ := connections_repr_any adj n1
  have hb : areConnected (repr adj) n1 n2 v = some (gq, decide ((n2, v) ∈ a_conn adj n1)) := by
    unfold areConnected
    rw [hq]
  have hnd := AWF_conn_nodup adj hw n1
  refine ⟨gq, a_conn adj n1, decide ((n2, v) ∈ a_conn adj n1), hq, hb, ?_, ?_⟩
  · simp
  · rw [find_edge_repr_wf adj hw]
    simp only [decide_eq_true_eq, Option.map_some', Option.some.injEq]
    constructor
    · intro hm
      exact ⟨List.mem_map_of_mem Prod.fst hm,
        fun a ha => snd_unique_of_nodup _ hnd n2 a v ha hm⟩
    · rintro ⟨hd, hu⟩
      obtain ⟨e, he, he2⟩ := List.mem_map.mp hd
      obtain ⟨d, a⟩ := e
      simp only at he2
      subst he2
      rw [← hu a he]
      exact he

theorem C9_areConnected_filtered_witness :
    build demo_g1_ops = some demo_g1 ∧
      ∃ gq c b, connections demo_g1 'c' = some (gq, c) ∧
        areConnected demo_g1 'c' 'e' 3 = some (gq, b) ∧
        (b = true ↔ ('e', 3) ∈ c) ∧
        (b = true ↔
          ((find_edge demo_g1 'c' 'e').map Prod.snd = some true ∧
            ∀ a, ('e', a) ∈ c → a = 3)) :=
  ⟨rfl, C9_areConnected_filtered demo_g1_ops demo_g1 rfl 'c' 'e' 3⟩

/-- C10. Idempotent node add: `add(n)` performed twice leaves the state that one
`add(n)` leaves, so every node has the same rank and every `connections(m)` gives
the same result. -/
theorem C10_add_node_idempotent {N A : Type} [DecidableEq N] (g : internalgraph N A)
    (n : N) :
    add (add g n) n = add g n ∧
      (∀ m, map_find (nodes (add (add g n) n)) m = map_find (nodes (add g n)) m) ∧
      (∀ m, connections (add (add g n) n) m = connections (add g n) m) := by
  have key : add (add g n) n = add g n := add_of_registered _ n (add_registers g n)
  refine ⟨key, ?_, ?_⟩ <;> intro m <;> rw [key]


/-- C11. Ranks are dense and bijective: on a graph built by add calls the keys of
`nodes()` are the nodes of the calls in the order of their first appearance, each
once, the ranks in that order are `1, 2, ..., k`, and so a node has rank `r`
exactly when it is the node at position `r - 1` of that order. -/
theorem C11_ranks_dense_bijective {N A : Type} [DecidableEq N] (ops : List (Op N A))
    (g : internalgraph N A) (h : build ops = some g) :
    (nodes g).map Prod.fst = first_seen ops ∧ (first_seen ops).Nodup ∧
      (nodes g).map Prod.snd = (List.range (nodes g).length).map (fun j : Nat => (j : Int) + 1) ∧
      (∀ n r, map_find (nodes g) n = some r ↔
        ∃ j : Nat, (first_seen ops)[j]? = some n ∧ r = (j : Int) + 1) := by
  rw [build_repr] at h
  have hg : g = repr (a_run [] ops) := (Option.some.inj h).symm
  have hw := AWF_run ops ([] : List (N × List (N × A))) AWF_nil
  have hk : (a_run ([] : List (N × List (N × A))) ops).map Prod.fst = first_seen ops :=
    a_run_keys ops []
  have hn : nodes g = rank_table 1 (first_seen ops) := by
    rw [hg, ← hk]; rfl
  have hnd : (first_seen ops).Nodup := hk ▸ hw.1
  refine ⟨?_, hnd, ?_, ?_⟩
  · rw [hn, rank_table_keys]
  · rw [hn, rank_table_ranks, rank_table_length]
  · intro n r
    rw [hn]
    exact rank_table_find _ hnd 1 n r

theorem C11_ranks_dense_bijective_witness :
    build demo_g1_ops = some demo_g1 ∧
      ((nodes demo_g1).map Prod.fst = first_seen demo_g1_ops ∧ (first_seen demo_g1_ops).Nodup ∧
        (nodes demo_g1).map Prod.snd =
          (List.range (nodes demo_g1).length).map (fun j : Nat => (j : Int) + 1) ∧
        (∀ n r, map_find (nodes demo_g1) n = some r ↔
          ∃ j : Nat, (first_seen demo_g1_ops)[j]? = some n ∧ r = (j : Int) + 1)) :=
  ⟨rfl, C11_ranks_dense_bijective demo_g1_ops demo_g1 rfl⟩

/-- C12. Rank stability: on a built graph, `add(n)` and `add(n1,n2,v)` leave the rank
of every registered node as it was, and a node that the call registers gets the
number of nodes registered just before its registration, plus one. -/
theorem C12_rank_stability {N A : Type} [DecidableEq N] (ops : List (Op N A))
    (g : internalgraph N A) (h : build ops = some g) :
    (∀ n m r, map_find (nodes g) m = some r → map_find (nodes (add g n)) m = some r) ∧
      (∀ n, map_count (nodes g) n = 0 →
        map_find (nodes (add g n)) n = some (((nodes g).length : Int) + 1)) ∧
      (∀ n1 n2 v, ∃ g1, add_edge g n1 n2 v = some g1 ∧
        (∀ m r, map_find (nodes g) m = some r → map_find (nodes g1) m = some r) ∧
        (map_count (nodes g) n1 = 0 →
          map_find (nodes g1) n1 = some (((nodes g).length : Int) + 1)) ∧
        (map_count (nodes (add g n1)) n2 = 0 →
          map_find (nodes g1) n2 = some (((nodes (add g n1)).length : Int) + 1))) := by
  obtain ⟨adj, hw, rfl⟩ := build_shape ops g h
  have hnodes : ∀ a : List (N × List (N × A)), nodes (repr a) = rank_table 1 (a.map Prod.fst) :=
    fun _ => rfl
  have hlen : ∀ a : List (N × List (N × A)),
      ((nodes (repr a)).length : Int) = ((a.map Prod.fst).length : Int) := by
    intro a; rw [hnodes, rank_table_length]
  have habs : ∀ (a : List (N × List (N × A))) n, map_count (nodes (repr a)) n = 0 →
      n ∉ a.map Prod.fst := fun a n h0 hk => (nodes_count_repr a n).mpr hk h0
  refine ⟨?_, ?_, ?_⟩
  · intro n m r hm
    rw [add_repr, hnodes, a_add_keys_eq]
    exact rank_table_seen_add _ n m r hm
  · intro n h0
    rw [add_repr, hnodes, a_add_keys_eq, hlen]
    exact rank_table_seen_new _ n (habs adj n h0)
  · intro n1 n2 v
    refine ⟨repr (a_add_edge adj n1 n2 v), add_edge_repr adj n1 n2 v, ?_, ?_, ?_⟩
    · intro m r hm
      rw [hnodes, a_add_edge_keys_eq]
      exact rank_table_seen_add _ n2 m r (rank_table_seen_add _ n1 m r hm)
    · intro h0
      rw [hnodes, a_add_edge_keys_eq, hlen]
      exact rank_table_seen_add _ n2 n1 _ (rank_table_seen_new _ n1 (habs adj n1 h0))
    · intro h0
      rw [add_repr] at h0 ⊢
      rw [hnodes, a_add_edge_keys_eq, hlen, a_add_keys_eq]
      have := habs _ n2 h0
      rw [a_add_keys_eq] at this
      exact rank_table_seen_new _ n2 this

theorem C12_rank_stability_witness :
    build demo_g1_ops = some demo_g1 ∧
      ((∀ n m r, map_find (nodes demo_g1) m = some r →
          map_find (nodes (add demo_g1 n)) m = some r) ∧
        (∀ n, map_count (nodes demo_g1) n = 0 →
          map_find (nodes (add demo_g1 n)) n = some (((nodes demo_g1).length : Int) + 1)) ∧
        (∀ n1 n2 v, ∃ g1, add_edge demo_g1 n1 n2 v = some g1 ∧
          (∀ m r, map_find (nodes demo_g1) m = some r → map_find (nodes g1) m = some r) ∧
          (map_count (nodes demo_g1) n1 = 0 →
            map_find (nodes g1) n1 = some (((nodes demo_g1).length : Int) + 1)) ∧
          (map_count (nodes (add demo_g1 n1)) n2 = 0 →
            map_find (nodes g1) n2 = some (((nodes (add demo_g1 n1)).length : Int) + 1)))) :=
  ⟨rfl, C12_rank_stability demo_g1_ops demo_g1 rfl⟩

/-- C13. Operations are total on built graphs: on a built graph `add(n1,n2,v)`,
`find_edge(n1,n2)` and `connections(n1)` for a registered `n1` return a result; the
slice bounds `lo = csrN[rank-1]` and `hi = csrN[rank]` read by `find_edge` and
`connections` satisfy `0 <= lo <= hi <= csrF.size()`, so every index from `lo`
below `hi` is inside `csrF`; and the insertion position `csrN[rank(n1)] - 1` that
`add` passes to `csrF.insert` lies between 0 and `csrF.size()`. -/
theorem C13_operations_total {N A : Type} [DecidableEq N] (ops : List (Op N A))
    (g : internalgraph N A) (h : build ops = some g) (n1 n2 : N) (v : A) :
    (∃ g1, add_edge g n1 n2 v = some g1) ∧
      (∃ b, find_edge g n1 n2 = some (g, b)) ∧
      (map_count (nodes g) n1 ≠ 0 →
        (∃ c, connections g n1 = some (g, c)) ∧
        ∃ r lo hi, map_find g.fNodes n1 = some r ∧ map_find g.csrN (r - 1) = some lo ∧
          map_find g.csrN r = some hi ∧ 0 ≤ lo ∧ lo ≤ hi ∧ hi ≤ (g.csrF.length : Int) ∧
          ∀ i : Int, lo ≤ i → i < hi → 0 ≤ i ∧ i < (g.csrF.length : Int)) ∧
      (∀ g1, find_edge (add g n1) n1 n2 = some (g1, false) →
        0 ≤ (map_index (add (incr_N g1 n1) n2).csrN
              (map_index (add (incr_N g1 n1) n2).fNodes n1).2).2 - 1 ∧
          (map_index (add (incr_N g1 n1) n2).csrN
              (map_index (add (incr_N g1 n1) n2).fNodes n1).2).2 - 1 ≤
            ((add (incr_N g1 n1) n2).csrF.length : Int)) := by
  obtain ⟨adj, hw, rfl⟩ := build_shape ops g h
  have hadd := add_edge_repr adj n1 n2 v
  refine ⟨⟨_, hadd⟩, ⟨_, find_edge_repr_wf adj hw n1 n2⟩, ?_, ?_⟩
  · intro hreg
    have hk : n1 ∈ adj.map Prod.fst := (nodes_count_repr adj n1).mp hreg
    refine ⟨⟨_, connections_repr adj n1 hk⟩, ?_⟩
    obtain ⟨r, lo, hi, h1, h2, h3, h4, h5, h6⟩ := slice_bounds_repr adj n1 hk
    refine ⟨r, lo, hi, h1, h2, h3, h4, h5, h6, ?_⟩
    intro i hi1 hi2
    omega
  · intro g1 hfind
    unfold add_edge at hadd
    rw [hfind] at hadd
    simp only at hadd
    cases hv : vec_insert (add (incr_N g1 n1) n2).csrF
        ((map_index (add (incr_N g1 n1) n2).csrN
          (map_index (add (incr_N g1 n1) n2).fNodes n1).2).2 - 1) (n2, v) with
    | none =>
      rw [hv] at hadd
      exact absurd hadd (by simp)
    | some F => exact vec_insert_bounds _ F _ _ hv

theorem C13_operations_total_witness :
    build demo_g1_ops = some demo_g1 ∧
      ((∃ g1, add_edge demo_g1 'd' 'c' 4 = some g1) ∧
        (∃ b, find_edge demo_g1 'd' 'c' = some (demo_g1, b)) ∧
        (map_count (nodes demo_g1) 'd' ≠ 0 →
          (∃ c, connections demo_g1 'd' = some (demo_g1, c)) ∧
          ∃ r lo hi, map_find demo_g1.fNodes 'd' = some r ∧
            map_find demo_g1.csrN (r - 1) = some lo ∧
            map_find demo_g1.csrN r = some hi ∧ 0 ≤ lo ∧ lo ≤ hi ∧
            hi ≤ (demo_g1.csrF.length : Int) ∧
            ∀ i : Int, lo ≤ i → i < hi → 0 ≤ i ∧ i < (demo_g1.csrF.length : Int)) ∧
        (∀ g1, find_edge (add demo_g1 'd') 'd' 'c' = some (g1, false) →
          0 ≤ (map_index (add (incr_N g1 'd') 'c').csrN
                (map_index (add (incr_N g1 'd') 'c').fNodes 'd').2).2 - 1 ∧
            (map_index (add (incr_N g1 'd') 'c').csrN
                (map_index (add (incr_N g1 'd') 'c').fNodes 'd').2).2 - 1 ≤
              ((add (incr_N g1 'd') 'c').csrF.length : Int))) :=
  ⟨rfl, C13_operations_total demo_g1_ops demo_g1 rfl 'd' 'c' 4⟩

/-- C14. The `+` operator mutates and aliases its left operand: for handles on two
built graphs, `g1 + g2` succeeds, the handle it returns holds the address that `g1`
holds (so `==` is true), the store afterwards is the one `g1.add(g2)` produces,
with the union written at the address of `g1`, and `nodes()` and `connections(n)`
read through `g1` and through the result are the same. -/
theorem C14_plus_aliases_left_operand {N A : Type} [DecidableEq N]
    (st : List (internalgraph N A)) (self other : handle) (ops1 ops2 : List (Op N A))
    (g1 g2 : internalgraph N A) (hs : st[self.fContent]? = some g1)
    (ho : st[other.fContent]? = some g2) (h1 : build ops1 = some g1)
    (h2 : build ops2 = some g2) (order : List N)
    (hperm : order.Perm ((nodes g2).map Prod.fst)) :
    ∃ st1 g3, op_plus st self other order = some (st1, g3) ∧ handle_eq g3 self = true ∧
      facade_add_graph st self other order = some st1 ∧
      facade_nodes st1 g3 = facade_nodes st1 self ∧
      (∀ n, facade_connections st1 g3 n = facade_connections st1 self n) ∧
      ∃ g1', add_graph g1 g2 order = some (g1', g2) ∧ st1 = st.set self.fContent g1' ∧
        facade_nodes st1 self = some (nodes g1') := by
  obtain ⟨a1, hw1, rfl⟩ := build_shape ops1 g1 h1
  obtain ⟨a2, hw2, rfl⟩ := build_shape ops2 g2 h2
  have hk2 : (nodes (repr a2)).map Prod.fst = a2.map Prod.fst := rank_table_keys _ 1
  rw [hk2] at hperm
  have hord : ∀ n ∈ order, n ∈ a2.map Prod.fst := fun n hn => hperm.mem_iff.mp hn
  have hval := add_graph_repr order a1 a2 hord
  have hrun : facade_add_graph st self other order =
      some (st.set self.fContent (repr (a_union a1 a2 order))) := by
    by_cases hne : self.fContent = other.fContent
    · have hso : self = other := by
        cases self; cases other; simp only at hne; rw [hne]
      subst hso
      have e12 : repr a1 = repr a2 := Option.some.inj (hs.symm.trans ho)
      have hu : repr (a_union a1 a2 order) = repr a2 := by
        have h22 := add_graph_repr order a2 a2 hord
        rw [a_union_self order a2 hw2 hord] at h22
        have hv := hval
        rw [e12] at hv
        exact (Prod.mk.inj (Option.some.inj (hv.symm.trans h22))).1
      rw [hu, store_set_self st _ _ ho]
      exact facade_add_graph_self order st self a2 hw2 ho hord
    · exact facade_add_graph_store order st self other a1 a2 hs ho hne hord
  refine ⟨st.set self.fContent (repr (a_union a1 a2 order)), { fContent := self.fContent },
    ?_, ?_, hrun, rfl, fun _ => rfl, repr (a_union a1 a2 order), hval, rfl, ?_⟩
  · unfold op_plus
    rw [hrun]
  · unfold handle_eq
    simp
  · unfold facade_nodes
    rw [store_get_set_same st _ _ _ hs]

theorem C14_plus_aliases_left_operand_witness :
    (([demo_g1, demo_g2] : List (internalgraph Char Int))[(handle.mk 0).fContent]? =
        some demo_g1 ∧
      ([demo_g1, demo_g2] : List (internalgraph Char Int))[(handle.mk 1).fContent]? =
        some demo_g2 ∧
      build demo_g1_ops = some demo_g1 ∧ build demo_g2_ops = some demo_g2 ∧
      (((nodes demo_g2).map Prod.fst).reverse).Perm ((nodes demo_g2).map Prod.fst)) ∧
      ∃ st1 g3,
        op_plus [demo_g1, demo_g2] (handle.mk 0) (handle.mk 1)
            ((nodes demo_g2).map Prod.fst).reverse = some (st1, g3) ∧
        handle_eq g3 (handle.mk 0) = true ∧
        facade_add_graph [demo_g1, demo_g2] (handle.mk 0) (handle.mk 1)
            ((nodes demo_g2).map Prod.fst).reverse = some st1 ∧
        facade_nodes st1 g3 = facade_nodes st1 (handle.mk 0) ∧
        (∀ n, facade_connections st1 g3 n = facade_connections st1 (handle.mk 0) n) ∧
        ∃ g1', add_graph demo_g1 demo_g2 ((nodes demo_g2).map Prod.fst).reverse =
            some (g1', demo_g2) ∧
          st1 = ([demo_g1, demo_g2] : List (internalgraph Char Int)).set
            (handle.mk 0).fContent g1' ∧
          facade_nodes st1 (handle.mk 0) = some (nodes g1') :=
  ⟨⟨rfl, rfl, rfl, rfl, List.reverse_perm _⟩,
    C14_plus_aliases_left_operand [demo_g1, demo_g2] (handle.mk 0) (handle.mk 1) demo_g1_ops
      demo_g2_ops demo_g1 demo_g2 rfl rfl rfl rfl _ (List.reverse_perm _)⟩

/-- C15. Union does not touch its argument: for built graphs `g1` and `g2` held by
two objects and every order of enumeration, `g1.add(g2)` succeeds and returns `g2`
with the node table, offset table and edge store it had, and each `connections(n)`
on a registered node of `g2` leaves `g2` as it was. -/
theorem C15_union_keeps_argument {N A : Type} [DecidableEq N] (ops1 ops2 : List (Op N A))
    (g1 g2 : internalgraph N A) (h1 : build ops1 = some g1) (h2 : build ops2 = some g2)
    (order : List N) (hperm : order.Perm ((nodes g2).map Prod.fst)) :
    (∃ g1', add_graph g1 g2 order = some (g1', g2)) ∧
      (∀ n, map_count (nodes g2) n ≠ 0 → ∃ c, connections g2 n = some (g2, c)) := by
  obtain ⟨a3, _, hrun, _, _⟩ := add_graph_built ops1 ops2 g1 g2 h1 h2 order hperm
  refine ⟨⟨_, hrun⟩, ?_⟩
  obtain ⟨a2, hw2, rfl⟩ := build_shape ops2 g2 h2
  intro n hn
  exact ⟨_, connections_repr a2 n ((nodes_count_repr a2 n).mp hn)⟩

theorem C15_union_keeps_argument_witness :
    (build demo_g1_ops = some demo_g1 ∧ build demo_g2_ops = some demo_g2 ∧
      (((nodes demo_g2).map Prod.fst).reverse).Perm ((nodes demo_g2).map Prod.fst)) ∧
      ((∃ g1', add_graph demo_g1 demo_g2 ((nodes demo_g2).map Prod.fst).reverse =
          some (g1', demo_g2)) ∧
        (∀ n, map_count (nodes demo_g2) n ≠ 0 →
          ∃ c, connections demo_g2 n = some (demo_g2, c))) :=
  ⟨⟨rfl, rfl, List.reverse_perm _⟩,
    C15_union_keeps_argument demo_g1_ops demo_g2_ops demo_g1 demo_g2 rfl rfl _
      (List.reverse_perm _)⟩

/-- C16. Evaluation of a sequence of calls with a query on an unknown node in
between: after `add('a','b',1); connections('z'); add('c','a',5)` the call
`connections('a')` returns `[('a',5)]`, while after the two `add` calls alone it
returns `[('b',1)]`. -/
theorem C16_query_on_unknown_node_disturbs_edges :
    run_calls internalgraph.empty demo_calls = some demo_calls_graph ∧
      connections demo_calls_graph 'a' = some (demo_calls_graph, [('a', 5)]) ∧
      build (strip_queries demo_calls) = some demo_calls_stripped_graph ∧
      connections demo_calls_stripped_graph 'a' =
        some (demo_calls_stripped_graph, [('b', 1)]) :=
  ⟨rfl, rfl, rfl, rfl⟩

/-- C17. Offset table invariant: on a built graph with `k >= 1` registered nodes,
`csrN[0]` is 0, `csrN[r-1] <= csrN[r]` for every rank `r` from 1 to `k`, and
`csrN[k]` is the length of `csrF`. -/
theorem C17_offset_table_invariant {N A : Type} [DecidableEq N] (ops : List (Op N A))
    (g : internalgraph N A) (h : build ops = some g) (hk : 1 ≤ (nodes g).length) :
    map_find g.csrN 0 = some 0 ∧
      (∀ r : Int, 1 ≤ r → r ≤ ((nodes g).length : Int) →
        ∃ a b, map_find g.csrN (r - 1) = some a ∧ map_find g.csrN r = some b ∧ a ≤ b) ∧
      map_find g.csrN ((nodes g).length : Int) = some (g.csrF.length : Int) := by
  obtain ⟨adj, hw, rfl⟩ := build_shape ops g h
  have hlen : (nodes (repr adj)).length = (adj.map Prod.snd).length := by
    show (rank_table 1 (adj.map Prod.fst)).length = _
    rw [rank_table_length, List.length_map, List.length_map]
  rw [hlen] at hk ⊢
  have hne : adj.map Prod.snd ≠ [] := by
    intro e
    rw [e] at hk
    simp at hk
  have hc : (repr adj).csrN = offset_table 0 0 (adj.map Prod.snd) := csrN_of_ne_nil _ hne
  rw [hc]
  refine ⟨?_, ?_, ?_⟩
  · have := offset_table_find (adj.map Prod.snd) 0 (Nat.zero_le _)
    simpa using this
  · intro r hr1 hr2
    obtain ⟨j, hj⟩ : ∃ j : Nat, r = (j : Int) + 1 := ⟨(r - 1).toNat, by omega⟩
    subst hj
    have hjk : j + 1 ≤ (adj.map Prod.snd).length := by omega
    have ha := offset_table_find (adj.map Prod.snd) j (by omega)
    have hb := offset_table_find (adj.map Prod.snd) (j + 1) hjk
    refine ⟨(((adj.map Prod.snd).take j).flatten.length : Int),
      (((adj.map Prod.snd).take (j + 1)).flatten.length : Int), ?_, ?_, ?_⟩
    · rw [add_sub_cancel_right]; exact ha
    · have e : ((j : Int) + 1) = ((j + 1 : Nat) : Int) := by push_cast; rfl
      rw [e]; exact hb
    · exact Int.ofNat_le.mpr (flatten_take_mono _ j)
  · have := offset_table_find (adj.map Prod.snd) (adj.map Prod.snd).length (le_refl _)
    rw [List.take_length] at this
    exact this

theorem C17_offset_table_invariant_witness :
    (build demo_g1_ops = some demo_g1 ∧ 1 ≤ (nodes demo_g1).length) ∧
      (map_find demo_g1.csrN 0 = some 0 ∧
        (∀ r : Int, 1 ≤ r → r ≤ ((nodes demo_g1).length : Int) →
          ∃ a b, map_find demo_g1.csrN (r - 1) = some a ∧ map_find demo_g1.csrN r = some b ∧
            a ≤ b) ∧
        map_find demo_g1.csrN ((nodes demo_g1).length : Int) =
          some (demo_g1.csrF.length : Int)) :=
  ⟨⟨rfl, by decide⟩, C17_offset_table_invariant demo_g1_ops demo_g1 rfl (by decide)⟩

/-- C18. `find_edge` decides edge existence: on a built graph the call returns a
result and leaves the graph as it was; the result is false when `n1` or `n2` is
not registered, and when both are it is true exactly when a pair with destination
`n2` occurs in `connections(n1)`. -/
theorem C18_find_edge_decides {N A : Type} [DecidableEq N] (ops : List (Op N A))
    (g : internalgraph N A) (h : build ops = some g) (n1 n2 : N) :
    ∃ b, find_edge g n1 n2 = some (g, b) ∧
      ((map_count (nodes g) n1 = 0 ∨ map_count (nodes g) n2 = 0) → b = false) ∧
      (map_count (nodes g) n1 ≠ 0 → map_count (nodes g) n2 ≠ 0 →
        ∃ c, connections g n1 = some (g, c) ∧ (b = true ↔ ∃ a, (n2, a) ∈ c)) := by
  obtain ⟨adj, hw, rfl⟩ := build_shape ops g h
  refine ⟨_, find_edge_repr_wf adj hw n1 n2, ?_, ?_⟩
  · rintro (h0 | h0)
    · have hk : n1 ∉ adj.map Prod.fst := fun hk => (nodes_count_repr adj n1).mpr hk h0
      rw [a_conn_absent adj n1 hk]
      simp
    · have hk : n2 ∉ adj.map Prod.fst := fun hk => (nodes_count_repr adj n2).mpr hk h0
      exact decide_eq_false (fun hd => hk (AWF_dst adj hw n1 n2 hd))
  · intro hr1 _
    have hk : n1 ∈ adj.map Prod.fst := (nodes_count_repr adj n1).mp hr1
    refine ⟨_, connections_repr adj n1 hk, ?_⟩
    rw [decide_eq_true_eq, mem_dsts_iff]

theorem C18_find_edge_decides_witness :
    build demo_g1_ops = some demo_g1 ∧
      ∃ b, find_edge demo_g1 'c' 'e' = some (demo_g1, b) ∧
        ((map_count (nodes demo_g1) 'c' = 0 ∨ map_count (nodes demo_g1) 'e' = 0) →
          b = false) ∧
        (map_count (nodes demo_g1) 'c' ≠ 0 → map_count (nodes demo_g1) 'e' ≠ 0 →
          ∃ c, connections demo_g1 'c' = some (demo_g1, c) ∧
            (b = true ↔ ∃ a, ('e', a) ∈ c)) :=
  ⟨rfl, C18_find_edge_decides demo_g1_ops demo_g1 rfl 'c' 'e'⟩

/-- C19. No parallel edges: on a built graph, for every registered node `n` the
destinations of the pairs returned by `connections(n)` are pairwise distinct. -/
theorem C19_no_parallel_edges {N A : Type} [DecidableEq N] (ops : List (Op N A))
    (g : internalgraph N A) (h : build ops = some g) (n : N)
    (hn : map_count (nodes g) n ≠ 0) :
    ∃ c, connections g n = some (g, c) ∧ (c.map Prod.fst).Nodup := by
  obtain ⟨adj, hw, rfl⟩ := build_shape ops g h
  exact ⟨_, connections_repr adj n ((nodes_count_repr adj n).mp hn), AWF_conn_nodup adj hw n⟩

theorem C19_no_parallel_edges_witness :
    (build demo_g1_ops = some demo_g1 ∧ map_count (nodes demo_g1) 'c' ≠ 0) ∧
      ∃ c, connections demo_g1 'c' = some (demo_g1, c) ∧ (c.map Prod.fst).Nodup :=
  ⟨⟨rfl, by decide⟩, C19_no_parallel_edges demo_g1_ops demo_g1 rfl 'c' (by decide)⟩

/-- C20. Destinations are registered: on a built graph the destination of every
pair of the edge store `csrF` is a key of `nodes()`. -/
theorem C20_destinations_registered {N A : Type} [DecidableEq N] (ops : List (Op N A))
    (g : internalgraph N A) (h : build ops = some g) (e : N × A) (he : e ∈ g.csrF) :
    map_count (nodes g) e.1 ≠ 0 := by
  obtain ⟨adj, hw, rfl⟩ := build_shape ops g h
  obtain ⟨p, hp, hep⟩ := mem_csrF_repr adj e he
  exact (nodes_count_repr adj e.1).mpr (hw.2.1 p hp e hep)

theorem C20_destinations_registered_witness :
    (build demo_g1_ops = some demo_g1 ∧ (('g', 1) : Char × Int) ∈ demo_g1.csrF) ∧
      map_count (nodes demo_g1) (('g', 1) : Char × Int).1 ≠ 0 :=
  ⟨⟨rfl, by decide⟩,
    C20_destinations_registered demo_g1_ops demo_g1 rfl ('g', 1) (by decide)⟩

end csrgraph
